import Mathlib

set_option maxHeartbeats 1000000

namespace JT

/-! Shallow embedding of the `jt` command-line tool (JSON/YAML/XML to
table renderer).  The main variant is `src/main.go`; the older pager
variant with ANSI-aware horizontal slicing is `src/unnamed/part_001`.
Text is modeled at the rune (character) level, as the Go source walks
strings rune by rune in all the functions embedded here; on the ASCII
inputs of the claims, byte and rune offsets coincide. -/

/-- Generic value tree produced by the external parsers (`interface` values
in the source).  Mappings are association lists of key/value pairs: Go maps
have unique keys and an unspecified iteration order, so renderer theorems
take a no-duplicate-keys hypothesis and prove insertion-order independence.
Numbers are modeled by one integer variant (the spec treats numbers
uniformly for display). -/
inductive Value where
  | vnull : Value
  | vbool : Bool → Value
  | vint : Int → Value
  | vstr : String → Value
  | vseq : List Value → Value
  | vmap : List (String × Value) → Value

/-- Go map lookup returning whether the key is present (`val, exists := m[k]`). -/
def goLookup (k : String) : List (String × Value) → Option Value
  | [] => none
  | p :: rest => if p.1 = k then some p.2 else goLookup k rest

/-- Go map indexing `m[key]` as used in `handleSlice`/`handleMap`: a missing
key yields the zero value of the interface type, i.e. `nil`, modeled as
`Value.vnull`. -/
def goIndex (ps : List (String × Value)) (k : String) : Value :=
  (goLookup k ps).getD .vnull

/-! ## Path selector evaluator (`applySelector`, src/main.go lines 599-668) -/

/-- Errors reported by `applySelector` (in the source each is an
`fmt.Fprintf` to stderr followed by `os.Exit(1)`); every constructor
carries the accumulated `fullPath` string exactly as the code builds it. -/
inductive SelErr where
  | invalidIndex (indexStr fullPath : String)
  | notAnArray (fullPath : String)
  | outOfBounds (index : Int) (fullPath : String)
  | notAnObject (fullPath : String)
  | keyNotFound (key fullPath : String)
deriving DecidableEq

/-- `strings.TrimPrefix(selector, ".")`. -/
def selTrimDot : List Char → List Char
  | '.' :: rest => rest
  | s => s

/-- `strings.ReplaceAll(s, "[", ".[")`: put every bracket step on its own
dot-separated segment. -/
def selNormalize : List Char → List Char
  | [] => []
  | '[' :: rest => '.' :: '[' :: selNormalize rest
  | c :: rest => c :: selNormalize rest

/-- `strings.Split(s, ".")` (splitting on a single-character separator,
keeping empty segments). -/
def splitDotsAux (cur : List Char) : List Char → List (List Char)
  | [] => [cur.reverse]
  | '.' :: rest => cur.reverse :: splitDotsAux [] rest
  | c :: rest => splitDotsAux (c :: cur) rest

def splitDots (s : List Char) : List (List Char) := splitDotsAux [] s

/-- The normalized step list of a selector (src/main.go lines 616-617). -/
def pathOf (sel : String) : List (List Char) :=
  splitDots (selNormalize (selTrimDot sel.data))

/-- `strings.HasPrefix(s, "[")`. -/
def startsWithBracket : List Char → Bool
  | '[' :: _ => true
  | _ => false

/-- `strings.HasSuffix(s, "]")`. -/
def endsWithBracket (s : List Char) : Bool :=
  s.getLast? = some ']'

def isBracketChar (c : Char) : Bool := c = '[' || c = ']'

/-- `strings.Trim(key, "[]")`: remove every leading and trailing character
belonging to the cutset. -/
def trimBracketCutset (s : List Char) : List Char :=
  ((s.dropWhile isBracketChar).reverse.dropWhile isBracketChar).reverse

def isDigitChar (c : Char) : Bool := '0' ≤ c && c ≤ '9'

def digitVal (c : Char) : Nat := c.toNat - '0'.toNat

/-- Value of a non-empty all-digit string; `none` otherwise. -/
def digitsVal : List Char → Option Nat
  | [] => none
  | ds => go ds 0
where
  go : List Char → Nat → Option Nat
    | [], acc => some acc
    | c :: rest, acc =>
      if isDigitChar c then go rest (acc * 10 + digitVal c) else none

/-- `strconv.Atoi`: optional sign followed by at least one digit. -/
def atoi : List Char → Option Int
  | '+' :: ds => (digitsVal ds).map Int.ofNat
  | '-' :: ds => (digitsVal ds).map (fun n => -(n : Int))
  | ds => (digitsVal ds).map Int.ofNat

/-- `fullPath` accumulation in the walk loop (src/main.go lines 626-630). -/
def extendPath (fullPath key : List Char) : List Char :=
  if fullPath = [] then key else fullPath ++ '.' :: key

/-- The step walk of `applySelector` (src/main.go lines 619-665): one
iteration per dot-separated segment, skipping empty segments, with bracket
segments treated as array indexing and everything else as map key access. -/
def walkSteps : Value → List (List Char) → List Char → Except SelErr Value
  | current, [], _ => .ok current
  | current, key :: rest, fullPath =>
    if key = [] then walkSteps current rest fullPath
    else
      let fullPath := extendPath fullPath key
      if startsWithBracket key && endsWithBracket key then
        let indexStr := trimBracketCutset key
        match atoi indexStr with
        | none => .error (.invalidIndex (String.mk indexStr) (String.mk fullPath))
        | some index =>
          match current with
          | .vseq arr =>
            if h : index < 0 ∨ (arr.length : Int) ≤ index then
              .error (.outOfBounds index (String.mk fullPath))
            else
              walkSteps (arr.get ⟨index.toNat, by omega⟩) rest fullPath
          | _ => .error (.notAnArray (String.mk fullPath))
      else
        match current with
        | .vmap m =>
          match goLookup (String.mk key) m with
          | none => .error (.keyNotFound (String.mk key) (String.mk fullPath))
          | some val => walkSteps val rest fullPath
        | _ => .error (.notAnObject (String.mk fullPath))

theorem sizeOf_lt_of_mem_values {a : Value} {l : List Value} (h : a ∈ l) :
    sizeOf a < sizeOf l := by
  induction l with
  | nil => cases h
  | cons b t ih =>
    rcases List.mem_cons.mp h with rfl | hmem
    · simp; omega
    · have := ih hmem; simp; omega

mutual

/-- `applySelector` (src/main.go lines 599-668).  Note that the sequence
fan-out branch (lines 604-613) tests only whether the root is a sequence
and whether the trimmed selector starts with a bracket; the multi-document
flag returned by `parseInput` is not passed to this function at all. -/
def applySelector (data : Value) (sel : String) : Except SelErr Value :=
  if sel = "." then .ok data
  else
    match data with
    | .vseq docs =>
      if startsWithBracket (selTrimDot sel.data) then
        walkSteps (.vseq docs) (pathOf sel) []
      else do
        let results ← applySelectorDocs docs sel
        pure (.vseq results)
    | d => walkSteps d (pathOf sel) []
termination_by (sizeOf data, 1)

/-- The per-document fan-out loop of `applySelector` (lines 607-611):
the same selector applied to each document in order, stopping at the
first error (in the source an error calls `os.Exit`). -/
def applySelectorDocs (docs : List Value) (sel : String) :
    Except SelErr (List Value) :=
  match docs with
  | [] => .ok []
  | d :: ds => do
    let r ← applySelector d sel
    let rs ← applySelectorDocs ds sel
    pure (r :: rs)
termination_by (sizeOf docs, 0)

end

/-! ## Value truncation (`truncateValue`, src/main.go lines 783-800) -/

/-- `strings.ReplaceAll(s, "\n", " ")`. -/
def replaceLF (cs : List Char) : List Char :=
  cs.map fun c => if c = '\n' then ' ' else c

/-- `strings.ReplaceAll(s, "\r", "")`: carriage returns are removed
outright (src/main.go line 786). -/
def removeCR (cs : List Char) : List Char :=
  cs.filter fun c => c ≠ '\r'

/-- One `strings.ReplaceAll(s, "  ", " ")` pass: non-overlapping
left-to-right replacement of two spaces by one. -/
def replaceDoubleSpace : List Char → List Char
  | [] => []
  | [c] => [c]
  | c :: b :: rest =>
    if c = ' ' ∧ b = ' ' then ' ' :: replaceDoubleSpace rest
    else c :: replaceDoubleSpace (b :: rest)

/-- `strings.Contains(s, "  ")`. -/
def hasDoubleSpace : List Char → Bool
  | [] => false
  | [_] => false
  | c :: b :: rest => (c = ' ' && b = ' ') || hasDoubleSpace (b :: rest)

theorem replaceDoubleSpace_length_le :
    ∀ cs : List Char, (replaceDoubleSpace cs).length ≤ cs.length
  | [] => by simp [replaceDoubleSpace]
  | [c] => by simp [replaceDoubleSpace]
  | c :: b :: rest => by
    by_cases h : c = ' ' ∧ b = ' '
    · have := replaceDoubleSpace_length_le rest
      simp [replaceDoubleSpace, h]; omega
    · have := replaceDoubleSpace_length_le (b :: rest)
      simp [replaceDoubleSpace, h] at this ⊢; omega

theorem replaceDoubleSpace_length_lt :
    ∀ cs : List Char, hasDoubleSpace cs = true →
      (replaceDoubleSpace cs).length < cs.length
  | [], h => by simp [hasDoubleSpace] at h
  | [c], h => by simp [hasDoubleSpace] at h
  | c :: b :: rest, h => by
    by_cases hcb : c = ' ' ∧ b = ' '
    · have := replaceDoubleSpace_length_le rest
      simp [replaceDoubleSpace, hcb]; omega
    · have hh : hasDoubleSpace (b :: rest) = true := by
        rcases (by simpa [hasDoubleSpace] using h :
            (c = ' ' ∧ b = ' ') ∨ hasDoubleSpace (b :: rest) = true) with h1 | h1
        · exact absurd h1 hcb
        · exact h1
      have := replaceDoubleSpace_length_lt (b :: rest) hh
      simp [replaceDoubleSpace, hcb] at this ⊢; omega

/-- The space-collapsing loop of `truncateValue` (lines 789-791): keeps
replacing double spaces until none remain; terminates because each pass
strictly shrinks a string that still contains a double space. -/
def collapseSpaces (cs : List Char) : List Char :=
  if h : hasDoubleSpace cs = true then collapseSpaces (replaceDoubleSpace cs)
  else cs
termination_by cs.length
decreasing_by exact replaceDoubleSpace_length_lt cs h

/-- `unicode.IsSpace` as relevant after LF/CR normalization (Go trims all
Unicode white space; the characters that can actually occur at this point
in `truncateValue` are covered by `Char.isWhitespace`). -/
def isSpaceChar (c : Char) : Bool := c.isWhitespace

/-- `strings.TrimSpace`. -/
def trimSpace (cs : List Char) : List Char :=
  ((cs.dropWhile isSpaceChar).reverse.dropWhile isSpaceChar).reverse

/-- The whitespace-normalized form of a string as computed by the first
half of `truncateValue` (lines 784-793). -/
def normalizeWS (cs : List Char) : List Char :=
  trimSpace (collapseSpaces (removeCR (replaceLF cs)))

/-- `truncateValue` (src/main.go lines 783-800), including the slice
expression `s[:maxWidth-3]`, which in Go panics with an out-of-range index
when `maxWidth - 3` is negative; a panic is modeled as `none`. -/
def truncateValueChecked (cs : List Char) (maxWidth : Int) : Option (List Char) :=
  let s := normalizeWS cs
  if (s.length : Int) ≤ maxWidth then some s
  else if maxWidth - 3 < 0 then none
  else some (s.take (maxWidth - 3).toNat ++ ['.', '.', '.'])

/-- `truncateValue` on the non-panicking domain (every caller in the
renderer claims assumes `maxWidth ≥ 3`); agrees with
`truncateValueChecked` there. -/
def truncateValue (cs : List Char) (maxWidth : Nat) : List Char :=
  let s := normalizeWS cs
  if s.length ≤ maxWidth then s
  else s.take (maxWidth - 3) ++ ['.', '.', '.']

/-- String-level wrapper used by the renderer. -/
def truncateValueS (s : String) (maxWidth : Nat) : String :=
  String.mk (truncateValue s.data maxWidth)

/-! ## Table renderer (src/main.go lines 750-937)

The spec (§1, §2.4) treats the table/grid-drawing backend (`tablewriter`)
as an external collaborator consuming a header row, a matrix of string
cells, and caption metadata; only that data contract is in scope.  `GoTable`
is exactly that contract, and `tableToString` is a fixed deterministic
serialization standing in for the backend.  The claims modeled here are
about the plain-terminal path (`format == "table"`, no color): the
HTML/color branches only wrap the same cell strings in markup. -/

structure GoTable where
  header : Option (List String) := none
  rows : List (List String) := []
  caption : Option String := none
deriving DecidableEq

/-- Deterministic stand-in for the external `tablewriter` backend: a pure
function of the header/rows/caption contract handed to it. -/
def tableToString (t : GoTable) : String :=
  let headerPart := match t.header with | none => [] | some hs => [String.intercalate " | " hs]
  let capPart := match t.caption with | none => [] | some c => [c]
  String.intercalate "\n" (headerPart ++ t.rows.map (String.intercalate " | ") ++ capPart)

/-- `fmt.Sprintf("%v", v)` for the scalar values that can reach the
default branches of `formatValue` and `appendData` (containers are
dispatched to the recursive renderer before this is consulted, so the
container branches here are unreachable from the embedded call sites). -/
def goFmt : Value → String
  | .vnull => "<nil>"
  | .vbool true => "true"
  | .vbool false => "false"
  | .vint n => toString n
  | .vstr s => s
  | .vseq _ => ""
  | .vmap _ => ""

/-- `buildHeaders` (src/main.go lines 907-918): `"[key]"` followed by the
lexicographically sorted keys of the first item when that item is a
mapping. -/
def buildHeaders (v : List Value) : List String :=
  "[key]" :: (match v.head? with
    | some (.vmap first) => List.insertionSort (· ≤ ·) (first.map Prod.fst)
    | _ => [])

/-- Caption attached by `handleSlice` when details are requested. -/
def sliceCaption (d : Bool) (n : Nat) : Option String :=
  if d then some ("[-] array, " ++ toString n ++ " items") else none

/-- Caption attached by `handleMap` when details are requested. -/
def mapCaption (d : Bool) (n : Nat) : Option String :=
  if d then some ("[-] object, " ++ toString n ++ " properties") else none

theorem sizeOf_goIndex_lt (ps : List (String × Value)) (k : String) :
    sizeOf (goIndex ps k) < sizeOf (Value.vmap ps) := by
  induction ps with
  | nil => simp [goIndex, goLookup]
  | cons p t ih =>
    obtain ⟨a, b⟩ := p
    by_cases h : a = k
    · simp [goIndex, goLookup, h]; omega
    · have := ih
      simp [goIndex, goLookup, h] at this ⊢
      omega

mutual

/-- `formatValue` (src/main.go lines 802-821), table-format path: nested
containers render as a complete nested table string, scalars as their
`%v` form truncated to the cell width. -/
def formatValue (val : Value) (d : Bool) (w : Nat) : String :=
  match val with
  | .vmap ps => tableToString (appendData (.vmap ps) d w)
  | .vseq xs => tableToString (appendData (.vseq xs) d w)
  | v => truncateValueS (goFmt v) w
termination_by (sizeOf val, 3, 0)

/-- `appendData` (src/main.go lines 832-843) together with the table
construction of `handleSlice` (845-889) and `handleMap` (891-905). -/
def appendData (data : Value) (d : Bool) (w : Nat) : GoTable :=
  match data with
  | .vseq v =>
    if v.length = 0 then { caption := sliceCaption d 0 }
    else { header := some (buildHeaders v),
           rows := sliceRows (buildHeaders v) d w 0 v,
           caption := sliceCaption d v.length }
  | .vmap ps =>
    { rows := mapRows ps (List.insertionSort (· ≤ ·) (ps.map Prod.fst)) d w,
      caption := mapCaption d ps.length }
  | v => { rows := [["value", truncateValueS (goFmt v) w]] }
termination_by (sizeOf data, 2, 0)

/-- The item loop of `handleSlice` (lines 856-888): mapping items become
an index cell followed by one cell per derived header key (a missing key
indexes the Go map at its zero value `nil`); other items fall back to a
plain `[index, formattedValue]` row. -/
def sliceRows (headers : List String) (d : Bool) (w : Nat) (i : Nat) :
    List Value → List (List String)
  | [] => []
  | item :: rest =>
    (match item with
     | .vmap m =>
       toString i :: (headers.drop 1).map (fun k =>
         have : sizeOf (goIndex m k) < 1 + sizeOf m := by
           simpa using sizeOf_goIndex_lt m k
         formatValue (goIndex m k) d w)
     | it => [toString i, formatValue it d w]) :: sliceRows headers d w (i + 1) rest
termination_by items => (sizeOf items, 1, 0)

/-- The sorted-key loop of `handleMap` (lines 900-904): one
`[key, formattedValue]` row per sorted key, looking the key up in the
original map. -/
def mapRows (ps : List (String × Value)) (keys : List String) (d : Bool) (w : Nat) :
    List (List String) :=
  match keys with
  | [] => []
  | k :: rest =>
    have : sizeOf (goIndex ps k) < 1 + sizeOf ps := by
      simpa using sizeOf_goIndex_lt ps k
    [k, formatValue (goIndex ps k) d w] :: mapRows ps rest d w
termination_by (sizeOf (Value.vmap ps), 1, keys.length)

end

/-- `renderRecursive` (src/main.go lines 750-758): one full table render
of a value. -/
def renderRecursive (data : Value) (d : Bool) (w : Nat) : String :=
  tableToString (appendData data d w)

/-! ## ANSI stripping and the interactive search (src/main.go lines 56-183,
282-354, 449-467) -/

/-- The Go letter test `(r >= 'A' && r <= 'Z') || (r >= 'a' && r <= 'z')`
that terminates an escape sequence. -/
def isGoLetter (c : Char) : Bool :=
  ('A' ≤ c && c ≤ 'Z') || ('a' ≤ c && c ≤ 'z')

/-- State machine of `stripANSI` (src/main.go lines 449-467): drop the
escape marker and everything to the first ASCII letter, keep the rest. -/
def stripAux : List Char → Bool → List Char
  | [], _ => []
  | c :: cs, inEsc =>
    if c = '\x1b' then stripAux cs true
    else if inEsc then
      (if isGoLetter c then stripAux cs false else stripAux cs true)
    else c :: stripAux cs false

def stripANSI (cs : List Char) : List Char := stripAux cs false

def toLowerChars (cs : List Char) : List Char := cs.map Char.toLower

/-- Character-level prefix test (needle starts the haystack). -/
def leadsWith : List Char → List Char → Bool
  | [], _ => true
  | _ :: _, [] => false
  | a :: ta, b :: tb => a = b && leadsWith ta tb

/-- `strings.Index`: first offset where the needle occurs, `none` for
Go's `-1`. -/
def subIndex : List Char → List Char → Option Nat
  | hay, needle =>
    if leadsWith needle hay then some 0
    else
      match hay with
      | [] => none
      | _ :: t => (subIndex t needle).map (· + 1)

/-- The inner column loop of `findMatches` (lines 168-181): record the
match position and resume the scan one character past the match start
(`col = actualCol + 1`).  The fuel argument only bounds the iteration
count; for a non-empty term the loop runs at most once per column, so
`length + 1` units never run out. -/
def findColsGo (t l : List Char) : Nat → Nat → List Nat
  | 0, _ => []
  | fuel + 1, col =>
    match subIndex (l.drop col) t with
    | none => []
    | some idx => (col + idx) :: findColsGo t l fuel (col + idx + 1)

def findCols (t l : List Char) : List Nat := findColsGo t l (l.length + 1) 0

/-- A recorded search match (the `searchMatch` struct, lines 56-60). -/
structure SMatch where
  line : Nat
  col : Nat
  text : String
deriving DecidableEq

/-- The per-line loop of `findMatches` (lines 166-182), with the running
line number threaded through. -/
def findMatchesAux (searchLower : List Char) (term : String) (ln : Nat) :
    List String → List SMatch
  | [] => []
  | line :: rest =>
    (findCols searchLower (toLowerChars line.data)).map (fun c => ⟨ln, c, term⟩)
      ++ findMatchesAux searchLower term (ln + 1) rest

/-- `findMatches` (src/main.go lines 159-183): case-insensitive scan of
every plain-content line. -/
def findMatches (term : String) (plainLines : List String) : List SMatch :=
  if term = "" then []
  else findMatchesAux (toLowerChars term.data) term 0 plainLines

/-- The pager-model fields that the search key handling reads and writes
(src/main.go lines 62-75); `yOffset` stands for the viewport's vertical
offset. -/
structure SearchModel where
  searchMode : Bool
  inputValue : String
  searchTerm : String
  plainContent : List String
  matchList : List SMatch
  currentMatch : Nat
  yOffset : Nat
deriving DecidableEq

/-- `jumpToMatch` (lines 282-288): scroll the viewport to the current
match's line (no-op when there are no matches; the index is always in
range at the call sites). -/
def jumpToMatch (m : SearchModel) : SearchModel :=
  if m.matchList.length = 0 then m
  else
    match m.matchList.get? m.currentMatch with
    | some mm => { m with yOffset := mm.line }
    | none => m

/-- The `enter` branch of `model.Update` in search mode (src/main.go
lines 104-114): commit the input buffer as the search term, recompute
matches, and only when at least one match exists jump to the first match
and leave search mode. -/
def enterKey (m : SearchModel) : SearchModel :=
  let committed := { m with searchTerm := m.inputValue }
  let recomputed :=
    { committed with matchList := findMatches committed.searchTerm committed.plainContent }
  if recomputed.matchList.length > 0 then
    let jumped := jumpToMatch { recomputed with currentMatch := 0 }
    { jumped with searchMode := false }
  else recomputed

/-- Model of `lipgloss` style rendering (an external collaborator): a
style wraps its text in an SGR escape sequence and a reset, both ending
in the letter `m`. -/
def hlOpen : List Char := '\x1b' :: ('[' :: ['4', '3', 'm'])

def curOpen : List Char := '\x1b' :: ('[' :: ['4', '1', 'm'])

def ansiReset : List Char := '\x1b' :: ('[' :: ['0', 'm'])

def styleWrap (isCur : Bool) (txt : List Char) : List Char :=
  (if isCur then curOpen else hlOpen) ++ txt ++ ansiReset

/-- The current-match test inside `renderContent` (lines 329-334): the
match at the cursor index must sit exactly at this line and column. -/
def isCurrentMatch (ms : List SMatch) (cur line col : Nat) : Bool :=
  match ms.get? cur with
  | some mm => mm.line == line && mm.col == col
  | none => false

/-- The per-line highlight loop of `renderContent` (lines 316-348):
`line` is the PLAIN (ANSI-stripped) text of the line — the source reads
`m.plainContent[lineNum]`, not the styled `m.content[lineNum]` — and the
loop interleaves unstyled gap segments with style-wrapped match segments,
appending the tail after the last match. -/
def highlightLoop (line : List Char) (tlen : Nat) (isCur : Nat → Bool) :
    Nat → List Nat → List Char
  | _, [] => []
  | lastPos, [c] =>
    (if lastPos < c then (line.drop lastPos).take (c - lastPos) else [])
      ++ styleWrap (isCur c) ((line.drop c).take tlen)
      ++ (if c + tlen < line.length then line.drop (c + tlen) else [])
  | lastPos, c :: c2 :: cs =>
    (if lastPos < c then (line.drop lastPos).take (c - lastPos) else [])
      ++ styleWrap (isCur c) ((line.drop c).take tlen)
      ++ highlightLoop line tlen isCur (c + tlen) (c2 :: cs)

/-- `renderContent` (src/main.go lines 290-354) as a line list: with an
empty term the styled content is returned untouched; otherwise every line
carrying matches (and lying inside the plain content) is REBUILT from its
plain text with highlight spans, while other lines keep their styled
form.  Match columns are grouped per line and sorted ascending, as in the
source. -/
def renderContentLines (content plain : List String) (term : String)
    (ms : List SMatch) (cur : Nat) : List String :=
  if term = "" then content
  else
    (List.range content.length).map (fun i =>
      let cols := List.insertionSort (· ≤ ·)
        ((ms.filter (fun mm => mm.line == i)).map (fun mm => mm.col))
      if cols = [] ∨ plain.length ≤ i then content.getD i ""
      else String.mk
        (highlightLoop (plain.getD i "").data term.data.length
          (fun c => isCurrentMatch ms cur i c) 0 cols))

/-- The joined string `renderContent` actually returns. -/
def renderContent (content plain : List String) (term : String)
    (ms : List SMatch) (cur : Nat) : String :=
  String.intercalate "\n" (renderContentLines content plain term ms cur)

/-! ## ANSI-aware horizontal slicing (src/unnamed/part_001 lines 52-190) -/

/-- The character loop of `sliceLine` (part_001 lines 149-188).  The Go
loop buffers an escape run and flushes the buffer when the run closes or
the string ends; since nothing else is written while the buffer is open,
emitting each run character immediately produces the identical output,
which is what this structural version does.  A visible character is kept
when at least `offset` visible characters precede it and fewer than
`width` have been written; the loop breaks right after the width-th kept
character. -/
def sliceAux (o w : Nat) : List Char → Bool → Nat → Nat → List Char
  | [], _, _, _ => []
  | c :: cs, inAnsi, pos, written =>
    if c = '\x1b' then c :: sliceAux o w cs true pos written
    else if inAnsi then c :: sliceAux o w cs (!isGoLetter c) pos written
    else if o ≤ pos ∧ written < w then
      (if w ≤ written + 1 then [c]
       else c :: sliceAux o w cs false (pos + 1) (written + 1))
    else if w ≤ written then []
    else sliceAux o w cs false (pos + 1) written

/-- `sliceLine` (part_001 lines 127-190).  `lipgloss.Width` (an external
collaborator) is modeled as the visible-character count, i.e. the length
of the ANSI-stripped text. -/
def sliceLine (line : List Char) (offset width : Nat) : List Char :=
  let lineWidth := (stripANSI line).length
  if offset = 0 ∧ lineWidth ≤ width then line
  else if lineWidth ≤ offset then []
  else sliceAux offset width line false 0 0

/-- The pager-model fields read and written by the horizontal-scroll keys
of `model.Update` in part_001 (lines 56-96). -/
structure PVModel where
  xOffset : Int
  width : Int
  contentWidth : Int
deriving DecidableEq

inductive PagerKey where
  | keyLeft | keyRight | keyTop | keyBottom | keyZero | keyDollar
deriving DecidableEq

/-- The horizontal-offset effect of each navigation key in part_001's
`model.Update` (lines 56-96): `h`/`left` moves 5 left clamped at 0,
`l`/`right` moves 5 right clamped at `contentWidth - width`, `g`/`home`
and `0` reset to 0, `G`/`end` leaves the offset alone, `$` jumps to the
right clamp when scrolling is possible. -/
def pagerKey : PagerKey → PVModel → PVModel
  | .keyLeft, m =>
    if m.xOffset > 0 then
      { m with xOffset := if m.xOffset - 5 < 0 then 0 else m.xOffset - 5 }
    else m
  | .keyRight, m =>
    let maxScroll := m.contentWidth - m.width
    if maxScroll > 0 ∧ m.xOffset < maxScroll then
      { m with xOffset := if m.xOffset + 5 > maxScroll then maxScroll else m.xOffset + 5 }
    else m
  | .keyTop, m => { m with xOffset := 0 }
  | .keyBottom, m => m
  | .keyZero, m => { m with xOffset := 0 }
  | .keyDollar, m =>
    let maxScroll := m.contentWidth - m.width
    if maxScroll > 0 then { m with xOffset := maxScroll } else m

/-- The clamp range the claims describe for the horizontal offset. -/
def pagerInv (m : PVModel) : Prop :=
  0 ≤ m.xOffset ∧ m.xOffset ≤ max 0 (m.contentWidth - m.width)

/-- A complete escape-sequence run body as scanned by the Go loops: every
character up to the last is a non-letter, and the run is closed by the
first ASCII letter. -/
def isRunChars : List Char → Bool
  | [] => false
  | [c] => isGoLetter c
  | c :: rest => !isGoLetter c && isRunChars rest

/-- Lines whose escape runs are all complete: the escape-scanning state
machine never ends a line mid-run.  Used to state which escape runs the
slicer copies through. -/
inductive CleanToks : List Char → Prop where
  | nil : CleanToks []
  | vis (c : Char) (rest : List Char) : c ≠ '\x1b' → CleanToks rest →
      CleanToks (c :: rest)
  | run (r rest : List Char) : isRunChars r = true → CleanToks rest →
      CleanToks ('\x1b' :: (r ++ rest))

/-- The global search-match order: by line, then by column. -/
def matchOrd (m1 m2 : SMatch) : Prop :=
  m1.line < m2.line ∨ (m1.line = m2.line ∧ m1.col < m2.col)

/-- Escape-free text (the shape of every ANSI-stripped plain line). -/
def noEsc (cs : List Char) : Prop := ∀ c ∈ cs, c ≠ '\x1b'

/-! ## Theorems.  First, shared helper lemmas, then one theorem per claim
(with its witness or counterexample where required). -/

theorem collapseSpaces_eq_self {cs : List Char} (h : hasDoubleSpace cs = false) :
    collapseSpaces cs = cs := by
  rw [collapseSpaces]
  simp [h]

theorem collapseSpaces_step {cs : List Char} (h : hasDoubleSpace cs = true) :
    collapseSpaces cs = collapseSpaces (replaceDoubleSpace cs) := by
  rw [collapseSpaces]
  simp [h]

/-- Claim C10: for every input string and every `maxWidth ≥ 3`,
`truncateValue` terminates (each space-collapsing pass strictly shrinks a
string still containing a double space — which is what makes
`collapseSpaces` well-founded) and returns, without panicking, a string
of at most `maxWidth` characters; for `maxWidth ≤ 2` any input whose
whitespace-normalized form is longer than `maxWidth` reaches the slice
expression with a negative bound, a Go out-of-range panic (`none`). -/
theorem c10_truncate_safety (s : List Char) (w : Int) :
    (hasDoubleSpace s = true → (replaceDoubleSpace s).length < s.length)
    ∧ (3 ≤ w → ∃ r, truncateValueChecked s w = some r ∧ (r.length : Int) ≤ w)
    ∧ (w ≤ 2 → w < ((normalizeWS s).length : Int) → truncateValueChecked s w = none) := by
  refine ⟨replaceDoubleSpace_length_lt s, ?_, ?_⟩
  · intro hw
    by_cases hlen : ((normalizeWS s).length : Int) ≤ w
    · exact ⟨normalizeWS s, by simp [truncateValueChecked, hlen], hlen⟩
    · refine ⟨(normalizeWS s).take (w - 3).toNat ++ ['.', '.', '.'], ?_, ?_⟩
      · simp only [truncateValueChecked]
        rw [if_neg hlen, if_neg (by omega)]
      · have htake : ((normalizeWS s).take (w - 3).toNat).length ≤ (w - 3).toNat :=
          le_trans (List.length_take_le _ _) le_rfl
        simp only [List.length_append, List.length_cons, List.length_nil]
        omega
  · intro hw hlen
    simp only [truncateValueChecked]
    rw [if_neg (by omega), if_pos (by omega)]

/-- Witness for C10 at concrete inputs: `maxWidth = 80` succeeds within
bounds, `maxWidth = 2` on `"abcd"` panics. -/
theorem c10_truncate_safety_witness :
    ((3 : Int) ≤ 80 ∧ ∃ r, truncateValueChecked ("a  b").data 80 = some r
        ∧ (r.length : Int) ≤ 80)
    ∧ ((2 : Int) ≤ 2 ∧ truncateValueChecked ("abcd").data 2 = none) := by
  constructor
  · exact ⟨by norm_num, (c10_truncate_safety ("a  b").data 80).2.1 (by norm_num)⟩
  · refine ⟨le_rfl, (c10_truncate_safety ("abcd").data 2).2.2 le_rfl ?_⟩
    rw [show normalizeWS ("abcd").data = ("abcd").data by
      simp only [normalizeWS]
      rw [show removeCR (replaceLF ("abcd").data) = ("abcd").data from by decide]
      rw [collapseSpaces_eq_self (by decide)]
      decide]
    decide

/-- Counterexample to claim C5 as stated: the claim says internal CR
characters are collapsed to single spaces, but `truncateValue` in
src/main.go (line 786) deletes them outright: `truncate("a\r b")` on the
one-CR input `"a\rb"` yields `"ab"`, not the `"a b"` the claimed
CR-to-space collapse would produce. -/
theorem c5_cr_counterexample :
    truncateValueChecked ("a\rb").data 80 = some ("ab").data
    ∧ ("ab").data ≠ ("a b").data := by
  constructor
  · simp only [truncateValueChecked, normalizeWS]
    rw [show removeCR (replaceLF ("a\rb").data) = ("ab").data from by decide]
    rw [collapseSpaces_eq_self (by decide)]
    decide
  · decide

/-- Claim C5 (amended): truncation first replaces LF characters by single
spaces and removes CR characters, collapses runs of spaces to one, trims
leading/trailing whitespace, and cuts to `maxWidth - 3` characters plus
`"..."` when the result exceeds `maxWidth`; in particular
`truncate("a  b\nc", 80) = "a b c"`, truncating 100 `x`s at width 10
yields 7 `x`s plus `"..."`, and `truncate("a\rb", 80) = "ab"`. -/
theorem c5_truncate_examples :
    truncateValueChecked ("a  b\nc").data 80 = some ("a b c").data
    ∧ truncateValueChecked (List.replicate 100 'x') 10
        = some (List.replicate 7 'x' ++ ['.', '.', '.'])
    ∧ truncateValueChecked ("a\rb").data 80 = some ("ab").data := by
  refine ⟨?_, ?_, ?_⟩
  · simp only [truncateValueChecked, normalizeWS]
    rw [show removeCR (replaceLF ("a  b\nc").data) = ("a  b c").data from by decide]
    rw [collapseSpaces_step (by decide)]
    rw [show replaceDoubleSpace ("a  b c").data = ("a b c").data from by decide]
    rw [collapseSpaces_eq_self (by decide)]
    decide
  · simp only [truncateValueChecked, normalizeWS]
    rw [show removeCR (replaceLF (List.replicate 100 'x')) = List.replicate 100 'x' from by decide]
    rw [collapseSpaces_eq_self (by decide)]
    decide
  · simp only [truncateValueChecked, normalizeWS]
    rw [show removeCR (replaceLF ("a\rb").data) = ("ab").data from by decide]
    rw [collapseSpaces_eq_self (by decide)]
    decide

/-- Counterexample to claim C1 as stated: on a tree whose mapping at `.a`
lacks the key `b`, the key-not-found error reports the prefix `"a.b"` —
the `fullPath` accumulator of `applySelector` never carries the leading
dot — not the claimed `".a.b"`. -/
theorem c1_prefix_counterexample :
    applySelector (.vmap [("a", .vmap [("c", .vint 1)])]) ".a.b[2]"
        = .error (.keyNotFound "b" "a.b")
    ∧ "a.b" ≠ ".a.b" := by
  constructor
  · simp [applySelector, pathOf, walkSteps, selTrimDot, selNormalize, splitDots,
      splitDotsAux, startsWithBracket, endsWithBracket, extendPath, goLookup,
      trimBracketCutset, atoi, digitsVal, isBracketChar]
  · decide

/-- Claim C1 (amended): the selector `.a.b[2]` applied to a tree
containing that structure returns exactly the sub-value at that position;
applied to a tree whose mapping at `.a` lacks key `b`, it fails with a
key-not-found error whose reported path prefix is `"a.b"` (without a
leading dot). -/
theorem c1_selector_path (m1 m2 : List (String × Value)) (xs : List Value)
    (ha : goLookup "a" m1 = some (.vmap m2)) :
    (∀ h2 : 2 < xs.length, goLookup "b" m2 = some (.vseq xs) →
       applySelector (.vmap m1) ".a.b[2]" = .ok (xs.get ⟨2, h2⟩))
    ∧ (goLookup "b" m2 = none →
       applySelector (.vmap m1) ".a.b[2]" = .error (.keyNotFound "b" "a.b")) := by
  constructor
  · intro h2 hb
    simp only [applySelector]
    rw [if_neg (by decide)]
    rw [show pathOf ".a.b[2]" = [['a'], ['b'], ['[', '2', ']']] from rfl]
    simp [walkSteps, startsWithBracket, endsWithBracket, extendPath,
      show (String.mk ['a']) = "a" from rfl, show (String.mk ['b']) = "b" from rfl,
      ha, hb, trimBracketCutset, isBracketChar, atoi, digitsVal, digitsVal.go,
      isDigitChar, digitVal]
    rw [dif_neg (by omega)]
  · intro hb
    simp only [applySelector]
    rw [if_neg (by decide)]
    rw [show pathOf ".a.b[2]" = [['a'], ['b'], ['[', '2', ']']] from rfl]
    simp [walkSteps, startsWithBracket, endsWithBracket, extendPath,
      show (String.mk ['a']) = "a" from rfl, show (String.mk ['b']) = "b" from rfl,
      show (String.mk ['a', '.', 'b']) = "a.b" from rfl,
      ha, hb, trimBracketCutset, isBracketChar, atoi, digitsVal, digitsVal.go,
      isDigitChar, digitVal]

/-- Witness for C1 on a concrete tree containing `.a.b[2]`. -/
theorem c1_selector_path_witness :
    goLookup "a" [("a", Value.vmap [("b", Value.vseq [.vint 0, .vint 1, .vint 7])])]
        = some (.vmap [("b", Value.vseq [.vint 0, .vint 1, .vint 7])])
    ∧ applySelector
        (.vmap [("a", Value.vmap [("b", Value.vseq [.vint 0, .vint 1, .vint 7])])])
        ".a.b[2]" = .ok (.vint 7) := by
  refine ⟨rfl, ?_⟩
  have h := (c1_selector_path
      [("a", Value.vmap [("b", Value.vseq [.vint 0, .vint 1, .vint 7])])]
      [("b", Value.vseq [.vint 0, .vint 1, .vint 7])]
      [.vint 0, .vint 1, .vint 7] rfl).1 (by norm_num) rfl
  simpa using h

/-- Counterexample to claim C2 as stated: a root sequence NOT carrying
the multi-document flag (an ordinary JSON array) with the key-access path
`.a` does not fail with a not-an-object error — `applySelector` never
sees the flag and fans out over any root sequence. -/
theorem c2_noflag_counterexample :
    applySelector (.vseq [.vmap [("a", .vint 1)], .vmap [("a", .vint 2)]]) ".a"
        = .ok (.vseq [.vint 1, .vint 2])
    ∧ ∀ p, applySelector (.vseq [.vmap [("a", .vint 1)], .vmap [("a", .vint 2)]]) ".a"
        ≠ .error (.notAnObject p) := by
  have h : applySelector (.vseq [.vmap [("a", .vint 1)], .vmap [("a", .vint 2)]]) ".a"
      = .ok (.vseq [.vint 1, .vint 2]) := by
    simp [applySelector, applySelectorDocs, pathOf, walkSteps, selTrimDot,
      selNormalize, splitDots, splitDotsAux, startsWithBracket, endsWithBracket,
      extendPath, goLookup, trimBracketCutset, atoi, digitsVal, isBracketChar,
      bind, Except.bind, pure, Except.pure]
  exact ⟨h, fun p hc => by rw [h] at hc; cases hc⟩

/-- Claim C2 (amended): the fan-out happens whenever the root value is a
sequence and the path does not start with an index step — regardless of
the multi-document flag, which `applySelector` is never given — applying
the same path independently to each element and returning the
per-element results in order (the first failing element aborts the whole
evaluation, as the source exits on error). -/
theorem c2_fanout (docs : List Value) (sel : String) (h1 : sel ≠ ".")
    (h2 : startsWithBracket (selTrimDot sel.data) = false) :
    applySelector (.vseq docs) sel = (applySelectorDocs docs sel).map Value.vseq
    ∧ ∀ rs, applySelectorDocs docs sel = .ok rs →
        List.Forall₂ (fun d r => applySelector d sel = .ok r) docs rs := by
  constructor
  · simp only [applySelector]
    rw [if_neg h1]
    rw [if_neg (by simp [h2])]
    cases happ : applySelectorDocs docs sel with
    | ok rs => simp [happ, Except.map, Except.bind, bind, pure, Except.pure]
    | error e => simp [happ, Except.map, Except.bind, bind, pure, Except.pure]
  · intro rs hrs
    induction docs generalizing rs with
    | nil =>
      simp only [applySelectorDocs] at hrs
      cases hrs
      exact List.Forall₂.nil
    | cons d ds ih =>
      simp only [applySelectorDocs] at hrs
      cases hd : applySelector d sel with
      | error e => rw [hd] at hrs; simp [Except.bind, bind] at hrs
      | ok r =>
        rw [hd] at hrs
        cases hds : applySelectorDocs ds sel with
        | error e => rw [hds] at hrs; simp [Except.bind, bind] at hrs
        | ok rs2 =>
          rw [hds] at hrs
          simp only [bind, Except.bind, pure, Except.pure] at hrs
          cases hrs
          exact List.Forall₂.cons hd (ih rs2 hds)

theorem goLookup_mem_of_eq_some {l : List (String × Value)} {k : String} {v : Value}
    (h : goLookup k l = some v) : (k, v) ∈ l := by
  induction l with
  | nil => simp [goLookup] at h
  | cons p t ih =>
    by_cases hk : p.1 = k
    · simp [goLookup, hk] at h
      subst h
      have hp : (k, p.2) = p := by rw [← hk]
      rw [hp]
      exact List.mem_cons_self p t
    · simp [goLookup, hk] at h
      exact List.mem_cons_of_mem _ (ih h)

theorem goLookup_eq_some_of_mem {l : List (String × Value)} {k : String} {v : Value}
    (nd : (l.map Prod.fst).Nodup) (hmem : (k, v) ∈ l) : goLookup k l = some v := by
  induction l with
  | nil => cases hmem
  | cons p t ih =>
    rcases List.mem_cons.mp hmem with rfl | hmem2
    · simp [goLookup]
    · have hk : p.1 ≠ k := by
        intro hk
        have : k ∈ t.map Prod.fst := List.mem_map.mpr ⟨(k, v), hmem2, rfl⟩
        rw [List.map_cons, List.nodup_cons, hk] at nd
        exact nd.1 this
      simp [goLookup, hk]
      exact ih (by rw [List.map_cons, List.nodup_cons] at nd; exact nd.2) hmem2

theorem goLookup_eq_none_iff {l : List (String × Value)} {k : String} :
    goLookup k l = none ↔ k ∉ l.map Prod.fst := by
  induction l with
  | nil => simp [goLookup]
  | cons p t ih =>
    by_cases hk : p.1 = k
    · simp [goLookup, hk]
    · simp [goLookup, hk, ih, Ne.symm hk]

theorem goLookup_perm {l1 l2 : List (String × Value)} (hp : l1.Perm l2)
    (nd : (l1.map Prod.fst).Nodup) (k : String) : goLookup k l1 = goLookup k l2 := by
  cases h2 : goLookup k l2 with
  | some v =>
    exact goLookup_eq_some_of_mem nd (hp.symm.subset (goLookup_mem_of_eq_some h2))
  | none =>
    rw [goLookup_eq_none_iff]
    rw [goLookup_eq_none_iff] at h2
    exact fun hmem => h2 ((hp.map Prod.fst).subset hmem)

theorem mapRows_eq_map (ps : List (String × Value)) (keys : List String) (d : Bool)
    (w : Nat) :
    mapRows ps keys d w = keys.map (fun k => [k, formatValue (goIndex ps k) d w]) := by
  induction keys with
  | nil => simp [mapRows]
  | cons k rest ih => simp [mapRows, ih]

theorem appendData_vmap (rs : List (String × Value)) (d : Bool) (w : Nat) :
    appendData (.vmap rs) d w =
      { rows := (List.insertionSort (· ≤ ·) (rs.map Prod.fst)).map
          (fun k => [k, formatValue (goIndex rs k) d w]),
        caption := mapCaption d rs.length } := by
  simp [appendData, mapRows_eq_map]

/-- Witness for C2: two documents, selector `.a`, fan-out equation applied
at the concrete input. -/
theorem c2_fanout_witness :
    (".a" ≠ "." ∧ startsWithBracket (selTrimDot (".a").data) = false)
    ∧ applySelector (.vseq [.vmap [("a", .vint 1)], .vmap [("b", .vint 2)]]) ".a"
        = (applySelectorDocs [.vmap [("a", .vint 1)], .vmap [("b", .vint 2)]] ".a").map
            Value.vseq := by
  exact ⟨⟨by decide, rfl⟩,
    (c2_fanout [.vmap [("a", .vint 1)], .vmap [("b", .vint 2)]] ".a"
      (by decide) rfl).1⟩

/-- Claim C3: for every mapping value the table renderer emits exactly
one row per key, the row order is strictly lexicographic by key, and two
mappings with the same key/value pairs (in any order) render to exactly
the same table and the same nested-cell string. -/
theorem c3_map_render (ps qs : List (String × Value)) (d : Bool) (w : Nat)
    (nd : (ps.map Prod.fst).Nodup) (hperm : ps.Perm qs) :
    ((appendData (.vmap ps) d w).rows.length = ps.length)
    ∧ ((appendData (.vmap ps) d w).rows.map (fun r => r.headD "")).Perm (ps.map Prod.fst)
    ∧ List.Sorted (· < ·) ((appendData (.vmap ps) d w).rows.map (fun r => r.headD ""))
    ∧ appendData (.vmap ps) d w = appendData (.vmap qs) d w
    ∧ formatValue (.vmap ps) d w = formatValue (.vmap qs) d w := by
  have hheads : (appendData (.vmap ps) d w).rows.map (fun r => r.headD "")
      = List.insertionSort (· ≤ ·) (ps.map Prod.fst) := by
    rw [appendData_vmap, List.map_map]
    have hcomp : ((fun r => List.headD r "") ∘
        fun k => [k, formatValue (goIndex ps k) d w]) = id := funext fun k => rfl
    rw [hcomp, List.map_id]
  have hsortperm := List.perm_insertionSort (· ≤ · : String → String → Prop) (ps.map Prod.fst)
  have hcells : ∀ k, goIndex ps k = goIndex qs k := by
    intro k
    simp [goIndex, goLookup_perm hperm nd k]
  have h4 : appendData (.vmap ps) d w = appendData (.vmap qs) d w := by
    have hkeys : List.insertionSort (· ≤ ·) (ps.map Prod.fst)
        = List.insertionSort (· ≤ ·) (qs.map Prod.fst) := by
      refine List.eq_of_perm_of_sorted ?_ (List.sorted_insertionSort _ _)
        (List.sorted_insertionSort _ _)
      exact (List.perm_insertionSort _ _).trans
        ((hperm.map Prod.fst).trans (List.perm_insertionSort _ _).symm)
    rw [appendData_vmap, appendData_vmap, hkeys, hperm.length_eq]
    simp only [hcells]
  refine ⟨?_, ?_, ?_, h4, ?_⟩
  · rw [appendData_vmap]
    simp [hsortperm.length_eq]
  · rw [hheads]
    exact hsortperm
  · rw [hheads]
    exact (List.sorted_insertionSort _ _).lt_of_le (hsortperm.nodup_iff.mpr nd)
  · simp only [formatValue]
    rw [h4]

/-- Witness for C3: a two-key mapping listed in both insertion orders
renders identically. -/
theorem c3_map_render_witness :
    (([("b", Value.vint 2), ("a", Value.vint 1)].map Prod.fst).Nodup
    ∧ ([("b", Value.vint 2), ("a", Value.vint 1)] :
        List (String × Value)).Perm [("a", Value.vint 1), ("b", Value.vint 2)])
    ∧ appendData (.vmap [("b", Value.vint 2), ("a", Value.vint 1)]) false 80
        = appendData (.vmap [("a", Value.vint 1), ("b", Value.vint 2)]) false 80 := by
  refine ⟨⟨by decide, List.Perm.swap ("a", Value.vint 1) ("b", Value.vint 2) []⟩, ?_⟩
  exact (c3_map_render [("b", Value.vint 2), ("a", Value.vint 1)]
    [("a", Value.vint 1), ("b", Value.vint 2)] false 80 (by decide)
    (List.Perm.swap ("a", Value.vint 1) ("b", Value.vint 2) [])).2.2.2.1

/-- Fuel-bounded twin of the space-collapsing loop, used to evaluate the
well-founded `collapseSpaces` on concrete inputs (each pass shrinks the
string, so `length` passes always suffice). -/
def collapseSpacesF : Nat → List Char → List Char
  | 0, cs => cs
  | fuel + 1, cs =>
    if hasDoubleSpace cs = true then collapseSpacesF fuel (replaceDoubleSpace cs) else cs

def normalizeWSF (cs : List Char) : List Char :=
  trimSpace (collapseSpacesF (removeCR (replaceLF cs)).length (removeCR (replaceLF cs)))

theorem collapseSpacesF_eq : ∀ (fuel : Nat) (cs : List Char), cs.length ≤ fuel →
    collapseSpacesF fuel cs = collapseSpaces cs
  | 0, cs, h => by
    have hnil : cs = [] := List.length_eq_zero.mp (by omega)
    subst hnil
    rw [show collapseSpacesF 0 [] = [] from rfl, collapseSpaces_eq_self (by decide)]
  | fuel + 1, cs, h => by
    by_cases hd : hasDoubleSpace cs = true
    · rw [collapseSpaces_step hd]
      simp only [collapseSpacesF, hd, if_true]
      exact collapseSpacesF_eq fuel (replaceDoubleSpace cs)
        (by have := replaceDoubleSpace_length_lt cs hd; simp at h ⊢; omega)
    · simp only [collapseSpacesF, hd]
      rw [collapseSpaces_eq_self (by simpa using hd)]
      simp

theorem normalizeWS_eq_F (cs : List Char) : normalizeWS cs = normalizeWSF cs := by
  simp only [normalizeWS, normalizeWSF]
  rw [collapseSpacesF_eq _ _ le_rfl]

theorem appendData_vseq (v : List Value) (d : Bool) (w : Nat) (hne : v ≠ []) :
    appendData (.vseq v) d w =
      { header := some (buildHeaders v),
        rows := sliceRows (buildHeaders v) d w 0 v,
        caption := sliceCaption d v.length } := by
  have : v.length ≠ 0 := by simpa using hne
  simp [appendData, this]

theorem sliceRows_cons (headers : List String) (d : Bool) (w : Nat) (i : Nat)
    (item : Value) (rest : List Value) :
    sliceRows headers d w i (item :: rest)
      = (match item with
         | .vmap m =>
           toString i :: (headers.drop 1).map (fun k => formatValue (goIndex m k) d w)
         | it => [toString i, formatValue it d w]) :: sliceRows headers d w (i + 1) rest := by
  cases item <;> simp only [sliceRows]

theorem sliceRows_length (headers : List String) (d : Bool) (w : Nat) :
    ∀ (items : List Value) (i : Nat),
      (sliceRows headers d w i items).length = items.length := by
  intro items
  induction items with
  | nil => intro i; simp [sliceRows]
  | cons item rest ih =>
    intro i
    rw [sliceRows_cons]
    simp [ih]

theorem sliceRows_getD (headers : List String) (d : Bool) (w : Nat) :
    ∀ (items : List Value) (i j : Nat), j < items.length →
      (sliceRows headers d w i items).getD j [] =
        (match items.getD j .vnull with
         | .vmap m =>
           toString (i + j) :: (headers.drop 1).map (fun k => formatValue (goIndex m k) d w)
         | it => [toString (i + j), formatValue it d w]) := by
  intro items
  induction items with
  | nil => intro i j hj; simp at hj
  | cons item rest ih =>
    intro i j hj
    cases j with
    | zero =>
      rw [sliceRows_cons]
      rfl
    | succ j2 =>
      rw [sliceRows_cons, List.getD_cons_succ, List.getD_cons_succ]
      rw [ih (i + 1) j2 (by simpa using hj)]
      rw [show i + 1 + j2 = i + (j2 + 1) from by omega]

theorem formatValue_vnil (d : Bool) (w : Nat) (hw : 5 ≤ w) :
    formatValue .vnull d w = "<nil>" := by
  simp only [formatValue, goFmt, truncateValueS, truncateValue]
  rw [show normalizeWS ("<nil>").data = ("<nil>").data from by
    simp only [normalizeWS]
    rw [show removeCR (replaceLF ("<nil>").data) = ("<nil>").data from by decide]
    rw [collapseSpaces_eq_self (by decide)]
    decide]
  rw [if_pos (by simpa using hw)]

/-- Evaluation form of `truncateValueS` in terms of the fuel-bounded
whitespace normalization, usable by `decide` on concrete inputs. -/
theorem truncateValueS_eval (s : String) (w : Nat) :
    truncateValueS s w = String.mk (if (normalizeWSF s.data).length ≤ w
      then normalizeWSF s.data
      else (normalizeWSF s.data).take (w - 3) ++ ['.', '.', '.']) := by
  simp only [truncateValueS, truncateValue, normalizeWS_eq_F]

/-- Counterexample to claim C4 as stated: a key absent from a later
mapping item is not rendered as an empty cell — Go's map indexing yields
the `nil` interface value, which `fmt.Sprintf("%v", ...)` prints as
`"<nil>"`.  The second row's `b` cell below is `"<nil>"`, not `""`. -/
theorem c4_nil_counterexample :
    (appendData (.vseq [.vmap [("a", .vint 1), ("b", .vint 2)], .vmap [("a", .vint 3)]])
        false 80).rows = [["0", "1", "2"], ["1", "3", "<nil>"]]
    ∧ ("<nil>" : String) ≠ "" := by
  have hbh : buildHeaders [.vmap [("a", .vint 1), ("b", .vint 2)], .vmap [("a", .vint 3)]]
      = ["[key]", "a", "b"] := by
    simp [buildHeaders, List.insertionSort, List.orderedInsert]
    decide
  have e1 : formatValue (goIndex [("a", Value.vint 1), ("b", Value.vint 2)] "a") false 80
      = "1" := by
    rw [show goIndex [("a", Value.vint 1), ("b", Value.vint 2)] "a" = Value.vint 1 from rfl]
    simp only [formatValue, goFmt, truncateValueS_eval]
    decide
  have e2 : formatValue (goIndex [("a", Value.vint 1), ("b", Value.vint 2)] "b") false 80
      = "2" := by
    rw [show goIndex [("a", Value.vint 1), ("b", Value.vint 2)] "b" = Value.vint 2 from rfl]
    simp only [formatValue, goFmt, truncateValueS_eval]
    decide
  have e3 : formatValue (goIndex [("a", Value.vint 3)] "a") false 80 = "3" := by
    rw [show goIndex [("a", Value.vint 3)] "a" = Value.vint 3 from rfl]
    simp only [formatValue, goFmt, truncateValueS_eval]
    decide
  have e4 : formatValue (goIndex [("a", Value.vint 3)] "b") false 80 = "<nil>" := by
    rw [show goIndex [("a", Value.vint 3)] "b" = Value.vnull from rfl]
    exact formatValue_vnil false 80 (by norm_num)
  constructor
  · rw [appendData_vseq _ _ _ (List.cons_ne_nil _ _), hbh]
    rw [sliceRows_cons, sliceRows_cons]
    simp only [sliceRows, List.drop, List.map, e1, e2, e3, e4]
    decide
  · decide

/-- Claim C4 (amended): for a non-empty sequence whose first item is a
mapping, the derived header list is `"[key]"` followed by the
lexicographically sorted keys of that first item; every mapping item's
row has exactly one cell per header (index cell included); a key absent
from a later mapping item is looked up at the Go zero value `nil` and
rendered as `"<nil>"` (not as an empty cell) rather than causing a
failure; non-mapping items fall back to a plain
`[index, formattedValue]` row. -/
theorem c4_slice_render (v : List Value) (first : List (String × Value)) (d : Bool)
    (w : Nat) (h1 : v.head? = some (.vmap first)) (hw : 5 ≤ w) :
    (∃ ks, buildHeaders v = "[key]" :: ks ∧ ks.Perm (first.map Prod.fst)
        ∧ List.Sorted (· ≤ ·) ks)
    ∧ (appendData (.vseq v) d w).header = some (buildHeaders v)
    ∧ (appendData (.vseq v) d w).rows.length = v.length
    ∧ (∀ i m, i < v.length → v.getD i .vnull = .vmap m →
        (appendData (.vseq v) d w).rows.getD i []
            = toString i ::
                ((buildHeaders v).drop 1).map (fun k => formatValue (goIndex m k) d w)
        ∧ ((appendData (.vseq v) d w).rows.getD i []).length = (buildHeaders v).length)
    ∧ (∀ (k : String) (m : List (String × Value)), goLookup k m = none →
        formatValue (goIndex m k) d w = "<nil>")
    ∧ (∀ i, i < v.length → (∀ m, v.getD i .vnull ≠ .vmap m) →
        (appendData (.vseq v) d w).rows.getD i []
            = [toString i, formatValue (v.getD i .vnull) d w]) := by
  have hne : v ≠ [] := by
    cases v with
    | nil => simp at h1
    | cons a t => exact List.cons_ne_nil a t
  have hhd : buildHeaders v = "[key]" ::
      List.insertionSort (· ≤ ·) (first.map Prod.fst) := by
    simp [buildHeaders, h1]
  refine ⟨?_, ?_, ?_, ?_, ?_, ?_⟩
  · exact ⟨_, hhd, List.perm_insertionSort _ _, List.sorted_insertionSort _ _⟩
  · rw [appendData_vseq v d w hne]
  · rw [appendData_vseq v d w hne]
    exact sliceRows_length _ _ _ _ _
  · intro i m hi hm
    rw [appendData_vseq v d w hne]
    have hrow := sliceRows_getD (buildHeaders v) d w v 0 i hi
    rw [hm] at hrow
    simp only [Nat.zero_add] at hrow
    refine ⟨hrow, ?_⟩
    rw [hrow, hhd]
    simp
  · intro k m hk
    have : goIndex m k = .vnull := by simp [goIndex, hk]
    rw [this]
    exact formatValue_vnil d w hw
  · intro i hi hnm
    rw [appendData_vseq v d w hne]
    have hrow := sliceRows_getD (buildHeaders v) d w v 0 i hi
    simp only [Nat.zero_add] at hrow
    rw [hrow]

/-- Witness for C4 at a concrete two-item sequence with a missing key. -/
theorem c4_slice_render_witness :
    ([Value.vmap [("a", Value.vint 1), ("b", Value.vint 2)],
        Value.vmap [("a", Value.vint 3)]].head?
      = some (.vmap [("a", Value.vint 1), ("b", Value.vint 2)]))
    ∧ (5 : Nat) ≤ 80
    ∧ (appendData (.vseq [Value.vmap [("a", Value.vint 1), ("b", Value.vint 2)],
        Value.vmap [("a", Value.vint 3)]]) false 80).rows.length = 2
    ∧ formatValue (goIndex [("a", Value.vint 3)] "b") false 80 = "<nil>" := by
  refine ⟨rfl, by norm_num, ?_, ?_⟩
  · exact (c4_slice_render
      [Value.vmap [("a", Value.vint 1), ("b", Value.vint 2)], Value.vmap [("a", Value.vint 3)]]
      [("a", Value.vint 1), ("b", Value.vint 2)] false 80 rfl (by norm_num)).2.2.1
  · exact (c4_slice_render
      [Value.vmap [("a", Value.vint 1), ("b", Value.vint 2)], Value.vmap [("a", Value.vint 3)]]
      [("a", Value.vint 1), ("b", Value.vint 2)] false 80 rfl (by norm_num)).2.2.2.2.1
      "b" [("a", Value.vint 3)] rfl


/-! ### Claim C6 helper lemmas: the incremental search -/

theorem leadsWith_length_le : ∀ {t l : List Char}, leadsWith t l = true →
    t.length ≤ l.length
  | [], l, _ => by simp
  | a :: ta, [], h => by simp [leadsWith] at h
  | a :: ta, b :: tb, h => by
    simp only [leadsWith, Bool.and_eq_true] at h
    have := leadsWith_length_le h.2
    simp
    omega

theorem subIndex_some : ∀ {hay : List Char} {t : List Char} {i : Nat},
    subIndex hay t = some i →
    leadsWith t (hay.drop i) = true ∧ ∀ j, j < i → leadsWith t (hay.drop j) = false := by
  intro hay
  induction hay with
  | nil =>
    intro t i h
    rw [subIndex] at h
    by_cases hp : leadsWith t [] = true
    · rw [if_pos hp] at h
      cases h
      exact ⟨hp, by omega⟩
    · rw [if_neg hp] at h
      simp at h
  | cons b tb ih =>
    intro t i h
    rw [subIndex] at h
    by_cases hp : leadsWith t (b :: tb) = true
    · rw [if_pos hp] at h
      cases h
      exact ⟨hp, by omega⟩
    · rw [if_neg hp] at h
      simp only [Option.map_eq_some'] at h
      obtain ⟨i2, hi2, rfl⟩ := h
      obtain ⟨h1, h2⟩ := ih hi2
      refine ⟨by simpa using h1, ?_⟩
      intro j hj
      cases j with
      | zero => simpa using (Bool.not_eq_true _).mp hp
      | succ j2 => simpa using h2 j2 (by omega)

theorem subIndex_none : ∀ {hay t : List Char}, subIndex hay t = none →
    ∀ j, leadsWith t (hay.drop j) = false := by
  intro hay
  induction hay with
  | nil =>
    intro t h j
    rw [subIndex] at h
    by_cases hp : leadsWith t [] = true
    · rw [if_pos hp] at h; cases h
    · simpa using (Bool.not_eq_true _).mp hp
  | cons b tb ih =>
    intro t h j
    rw [subIndex] at h
    by_cases hp : leadsWith t (b :: tb) = true
    · rw [if_pos hp] at h; cases h
    · rw [if_neg hp] at h
      simp only [Option.map_eq_none'] at h
      cases j with
      | zero => simpa using (Bool.not_eq_true _).mp hp
      | succ j2 => simpa using ih h j2

theorem subIndex_bound {hay t : List Char} {i : Nat} (h : subIndex hay t = some i)
    (ht : t ≠ []) : i + t.length ≤ hay.length := by
  have h1 := (subIndex_some h).1
  have h2 := leadsWith_length_le h1
  have h3 : (hay.drop i).length = hay.length - i := List.length_drop _ _
  have h4 : 1 ≤ t.length := by
    cases t with
    | nil => exact absurd rfl ht
    | cons a ta => simp
  omega

theorem mem_findColsGo {t l : List Char} (ht : t ≠ []) :
    ∀ (fuel col c : Nat), l.length + 1 ≤ fuel + col →
      (c ∈ findColsGo t l fuel col ↔ (col ≤ c ∧ leadsWith t (l.drop c) = true)) := by
  intro fuel
  induction fuel with
  | zero =>
    intro col c hcol
    simp only [findColsGo, List.not_mem_nil, false_iff]
    intro hc
    have h2 := leadsWith_length_le hc.2
    have h3 : (l.drop c).length = l.length - c := List.length_drop _ _
    have h4 : 1 ≤ t.length := by
      cases t with
      | nil => exact absurd rfl ht
      | cons a ta => simp
    omega
  | succ fuel ih =>
    intro col c hcol
    rw [findColsGo]
    cases hsub : subIndex (l.drop col) t with
    | none =>
      simp only [List.not_mem_nil, false_iff]
      intro hc
      have := subIndex_none hsub (c - col)
      rw [List.drop_drop] at this
      rw [show col + (c - col) = c from by omega] at this
      rw [hc.2] at this
      cases this
    | some idx =>
      have hbd := subIndex_bound hsub ht
      have hlead : leadsWith t (l.drop (col + idx)) = true := by
        have := (subIndex_some hsub).1
        rw [List.drop_drop] at this
        exact this
      simp only [List.mem_cons]
      rw [ih (col + idx + 1) c (by omega)]
      constructor
      · rintro (rfl | ⟨h1, h2⟩)
        · exact ⟨by omega, hlead⟩
        · exact ⟨by omega, h2⟩
      · rintro ⟨h1, h2⟩
        rcases Nat.lt_trichotomy c (col + idx) with hlt | heq | hgt
        · exfalso
          have := (subIndex_some hsub).2 (c - col) (by omega)
          rw [List.drop_drop] at this
          rw [show col + (c - col) = c from by omega] at this
          rw [h2] at this
          cases this
        · exact Or.inl heq
        · exact Or.inr ⟨by omega, h2⟩

theorem findColsGo_lb {t l : List Char} :
    ∀ (fuel col c : Nat), c ∈ findColsGo t l fuel col → col ≤ c := by
  intro fuel
  induction fuel with
  | zero => intro col c hc; simp [findColsGo] at hc
  | succ fuel ih =>
    intro col c hc
    rw [findColsGo] at hc
    cases hsub : subIndex (l.drop col) t with
    | none => rw [hsub] at hc; simp at hc
    | some idx =>
      rw [hsub] at hc
      rcases List.mem_cons.mp hc with rfl | hc2
      · omega
      · have := ih (col + idx + 1) c hc2
        omega

theorem findColsGo_pairwise {t l : List Char} :
    ∀ (fuel col : Nat), List.Pairwise (· < ·) (findColsGo t l fuel col) := by
  intro fuel
  induction fuel with
  | zero => intro col; simp [findColsGo]
  | succ fuel ih =>
    intro col
    rw [findColsGo]
    cases hsub : subIndex (l.drop col) t with
    | none => simp
    | some idx =>
      refine List.Pairwise.cons ?_ (ih (col + idx + 1))
      intro c hc
      have := findColsGo_lb fuel (col + idx + 1) c hc
      omega

theorem findCols_mem {t l : List Char} (ht : t ≠ []) (c : Nat) :
    c ∈ findCols t l ↔ leadsWith t (l.drop c) = true := by
  rw [findCols, mem_findColsGo ht (l.length + 1) 0 c (by omega)]
  simp

theorem mem_findMatchesAux (sl : List Char) (term : String) :
    ∀ (lines : List String) (ln0 : Nat) (mm : SMatch),
      mm ∈ findMatchesAux sl term ln0 lines ↔
        ∃ j, j < lines.length ∧ mm.line = ln0 + j ∧ mm.text = term
          ∧ mm.col ∈ findCols sl (toLowerChars ((lines.getD j "").data)) := by
  intro lines
  induction lines with
  | nil => intro ln0 mm; simp [findMatchesAux]
  | cons line rest ih =>
    intro ln0 mm
    obtain ⟨ml, mc, mt⟩ := mm
    simp only [findMatchesAux, List.mem_append, List.mem_map]
    constructor
    · rintro (⟨c, hc, heq⟩ | hrest)
      · cases heq
        exact ⟨0, by simp, by simp, rfl, by simpa using hc⟩
      · obtain ⟨j, hj, hline, htext, hcol⟩ := (ih (ln0 + 1) ⟨ml, mc, mt⟩).mp hrest
        exact ⟨j + 1, by simpa using hj, by simp at hline ⊢; omega, htext,
          by simpa using hcol⟩
    · rintro ⟨j, hj, hline, htext, hcol⟩
      cases j with
      | zero =>
        left
        exact ⟨mc, by simpa using hcol, by simp at hline; simp [hline, htext]⟩
      | succ j2 =>
        right
        refine (ih (ln0 + 1) ⟨ml, mc, mt⟩).mpr ⟨j2, by simpa using hj, ?_, htext,
          by simpa using hcol⟩
        simp
        omega

theorem findMatchesAux_line_lb (sl : List Char) (term : String)
    (lines : List String) (ln0 : Nat) (mm : SMatch)
    (h : mm ∈ findMatchesAux sl term ln0 lines) : ln0 ≤ mm.line := by
  obtain ⟨j, _, hline, _, _⟩ := (mem_findMatchesAux sl term lines ln0 mm).mp h
  omega

theorem findMatchesAux_pairwise (sl : List Char) (term : String) :
    ∀ (lines : List String) (ln0 : Nat),
      List.Pairwise matchOrd (findMatchesAux sl term ln0 lines) := by
  intro lines
  induction lines with
  | nil => intro ln0; simp [findMatchesAux]
  | cons line rest ih =>
    intro ln0
    rw [findMatchesAux]
    rw [List.pairwise_append]
    refine ⟨?_, ih (ln0 + 1), ?_⟩
    · rw [List.pairwise_map]
      refine List.Pairwise.imp ?_
        (@findColsGo_pairwise sl (toLowerChars line.data)
          (toLowerChars line.data).length.succ 0)
      intro a b hab
      exact Or.inr ⟨rfl, hab⟩
    · rintro m1 hm1 m2 hm2
      obtain ⟨c, hc, rfl⟩ := List.mem_map.mp hm1
      have := findMatchesAux_line_lb sl term rest (ln0 + 1) m2 hm2
      exact Or.inl (by simpa using by omega)

/-- Counterexample to claim C6 as stated: the scan resumes one character
after each match start (`col = actualCol + 1`), so it records overlapping
occurrences.  For the term `"aa"` on the line `"aaa"` the code records
columns 0 and 1 (which overlap, since `1 < 0 + 2`); a non-overlapping scan
would record only column 0. -/
theorem c6_overlap_counterexample :
    findMatches "aa" ["aaa"] = [⟨0, 0, "aa"⟩, ⟨0, 1, "aa"⟩]
    ∧ (1 : Nat) < 0 + ("aa").length
    ∧ findMatches "aa" ["aaa"] ≠ [⟨0, 0, "aa"⟩] := by
  refine ⟨by decide, by decide, by decide⟩

/-- Claim C6 (amended): for every committed non-empty term, the matches
are exactly the case-insensitive substring occurrences — every starting
column, overlapping ones included, since the scan resumes one character
past each match start — over the plain-content lines, globally ordered by
(line, column); for term `"ab"` against line `"AbcAb"` the matches are at
columns 0 and 3. -/
theorem c6_search (term : String) (lines : List String) (ht : term ≠ "") :
    (∀ mm : SMatch, mm ∈ findMatches term lines ↔
       (mm.text = term ∧ mm.line < lines.length ∧
         leadsWith (toLowerChars term.data)
           ((toLowerChars ((lines.getD mm.line "").data)).drop mm.col) = true))
    ∧ List.Pairwise matchOrd (findMatches term lines)
    ∧ findMatches "ab" ["AbcAb"] = [⟨0, 0, "ab"⟩, ⟨0, 3, "ab"⟩] := by
  have hdata : term.data ≠ [] := by
    intro hd
    apply ht
    cases term with
    | mk d => simp at hd; subst hd; rfl
  have htl : toLowerChars term.data ≠ [] := by
    simpa [toLowerChars] using hdata
  refine ⟨?_, ?_, by decide⟩
  · intro mm
    rw [findMatches, if_neg ht, mem_findMatchesAux]
    constructor
    · rintro ⟨j, hj, hline, htext, hcol⟩
      simp only [Nat.zero_add] at hline
      subst hline
      exact ⟨htext, hj, (findCols_mem htl _).mp hcol⟩
    · rintro ⟨htext, hlen, hlead⟩
      exact ⟨mm.line, hlen, by omega, htext, (findCols_mem htl _).mpr hlead⟩
  · rw [findMatches, if_neg ht]
    exact findMatchesAux_pairwise _ _ _ _

/-- Witness for C6 on the claim example: `"ab"` against `"AbcAb"` has a
match at column 3. -/
theorem c6_search_witness :
    ("ab" ≠ "" ∧ (⟨0, 3, "ab"⟩ : SMatch) ∈ findMatches "ab" ["AbcAb"]) := by
  refine ⟨by decide, ?_⟩
  exact ((c6_search "ab" ["AbcAb"] (by decide)).1 ⟨0, 3, "ab"⟩).mpr (by decide)


/-- Counterexample to claim C7 as stated: committing a term with zero
matches does NOT return the pager to the Normal state — `searchMode` is
reset only inside the `len(m.matches) > 0` branch (src/main.go lines
107-112), so with input `"zz"` over content `["abc"]` the model stays in
search mode (while the term is still committed). -/
theorem c7_zero_matches_counterexample :
    (enterKey ⟨true, "zz", "", ["abc"], [], 0, 0⟩).searchMode = true
    ∧ (enterKey ⟨true, "zz", "", ["abc"], [], 0, 0⟩).searchTerm = "zz" := by
  constructor <;> decide

/-- Claim C7 (amended): in search mode, Enter always commits the input
buffer as the active term and recomputes the match list; when at least
one match exists it also resets the cursor to the first match, scrolls to
that match's line, and returns to Normal; when the committed term yields
zero matches the pager STAYS in the search-editing state with viewport
and cursor untouched. -/
theorem c7_enter_commit (m : SearchModel) (hmode : m.searchMode = true) :
    ((enterKey m).searchTerm = m.inputValue
    ∧ (enterKey m).matchList = findMatches m.inputValue m.plainContent)
    ∧ (∀ mm rest, findMatches m.inputValue m.plainContent = mm :: rest →
        (enterKey m).searchMode = false ∧ (enterKey m).currentMatch = 0
        ∧ (enterKey m).yOffset = mm.line)
    ∧ (findMatches m.inputValue m.plainContent = [] →
        (enterKey m).searchMode = true ∧ (enterKey m).yOffset = m.yOffset
        ∧ (enterKey m).currentMatch = m.currentMatch) := by
  cases hfm : findMatches m.inputValue m.plainContent with
  | nil =>
    refine ⟨⟨by simp [enterKey, hfm], by simp [enterKey, hfm]⟩, ?_, ?_⟩
    · intro mm rest h
      cases h
    · intro h2
      simp [enterKey, hfm, hmode]
  | cons mm0 rest0 =>
    refine ⟨⟨by simp [enterKey, jumpToMatch, hfm],
      by simp [enterKey, jumpToMatch, hfm]⟩, ?_, ?_⟩
    · intro mm rest h
      cases h
      simp [enterKey, jumpToMatch, hfm]
    · intro h
      cases h

/-- Witness for C7 at a model whose committed term has one match. -/
theorem c7_enter_commit_witness :
    ((⟨true, "b", "", ["abc"], [], 5, 7⟩ : SearchModel).searchMode = true)
    ∧ (enterKey ⟨true, "b", "", ["abc"], [], 5, 7⟩).searchMode = false
    ∧ (enterKey ⟨true, "b", "", ["abc"], [], 5, 7⟩).yOffset = 0 := by
  refine ⟨rfl, ?_, ?_⟩
  · exact ((c7_enter_commit _ rfl).2.1 ⟨0, 1, "b"⟩ [] (by decide)).1
  · exact ((c7_enter_commit _ rfl).2.1 ⟨0, 1, "b"⟩ [] (by decide)).2.2


/-! ### Claim C8 helper lemmas: ANSI stripping over highlighted segments -/

theorem stripAux_append_noEsc : ∀ {a : List Char} (b : List Char),
    noEsc a → stripAux (a ++ b) false = a ++ stripAux b false
  | [], b, _ => by simp
  | c :: t, b, h => by
    have hc : c ≠ '\x1b' := h c (List.mem_cons_self c t)
    have ht : noEsc t := fun x hx => h x (List.mem_cons_of_mem c hx)
    have ih := stripAux_append_noEsc b ht
    simp only [List.cons_append]
    rw [stripAux]
    simp only [if_neg hc]
    rw [ih]
    simp

theorem stripANSI_noEsc {a : List Char} (h : noEsc a) : stripANSI a = a := by
  have := @stripAux_append_noEsc a [] h
  simpa [stripANSI, stripAux] using this

theorem stripAux_hlOpen (b : List Char) :
    stripAux (hlOpen ++ b) false = stripAux b false := rfl

theorem stripAux_curOpen (b : List Char) :
    stripAux (curOpen ++ b) false = stripAux b false := rfl

theorem stripAux_reset (b : List Char) :
    stripAux (ansiReset ++ b) false = stripAux b false := rfl

theorem stripAux_styleWrap (cur : Bool) {txt : List Char} (b : List Char)
    (h : noEsc txt) :
    stripAux (styleWrap cur txt ++ b) false = txt ++ stripAux b false := by
  cases cur
  · have e1 : styleWrap false txt = hlOpen ++ (txt ++ ansiReset) := by
      simp [styleWrap]
    rw [e1, List.append_assoc, stripAux_hlOpen, List.append_assoc,
      stripAux_append_noEsc _ h, stripAux_reset]
  · have e1 : styleWrap true txt = curOpen ++ (txt ++ ansiReset) := by
      simp [styleWrap]
    rw [e1, List.append_assoc, stripAux_curOpen, List.append_assoc,
      stripAux_append_noEsc _ h, stripAux_reset]

theorem noEsc_drop {line : List Char} (h : noEsc line) (n : Nat) :
    noEsc (line.drop n) := fun x hx => h x (List.mem_of_mem_drop hx)

theorem noEsc_take {line : List Char} (h : noEsc line) (n : Nat) :
    noEsc (line.take n) := fun x hx => h x (List.mem_of_mem_take hx)

theorem segment_decomp (line : List Char) (lastPos c tlen : Nat) (h1 : lastPos ≤ c)
    (h2 : c + tlen ≤ line.length) :
    line.drop lastPos
      = (if lastPos < c then (line.drop lastPos).take (c - lastPos) else [])
        ++ ((line.drop c).take tlen ++ line.drop (c + tlen)) := by
  have edrop : (line.drop lastPos).drop (c - lastPos) = line.drop c := by
    rw [List.drop_drop]
    congr 1
    omega
  have etail : (line.drop c).drop tlen = line.drop (c + tlen) := by
    rw [List.drop_drop]
  by_cases hlt : lastPos < c
  · rw [if_pos hlt]
    calc line.drop lastPos
        = (line.drop lastPos).take (c - lastPos) ++ (line.drop lastPos).drop (c - lastPos) :=
          (List.take_append_drop _ _).symm
      _ = (line.drop lastPos).take (c - lastPos) ++ line.drop c := by rw [edrop]
      _ = (line.drop lastPos).take (c - lastPos)
            ++ ((line.drop c).take tlen ++ (line.drop c).drop tlen) := by
          rw [List.take_append_drop]
      _ = _ := by rw [etail]
  · have heq : lastPos = c := by omega
    subst heq
    rw [if_neg hlt, List.nil_append]
    calc line.drop lastPos
        = (line.drop lastPos).take tlen ++ (line.drop lastPos).drop tlen :=
          (List.take_append_drop _ _).symm
      _ = _ := by rw [etail]

theorem tailIf_eq (line : List Char) (n : Nat) (h : n ≤ line.length) :
    (if n < line.length then line.drop n else []) = line.drop n := by
  by_cases hlt : n < line.length
  · rw [if_pos hlt]
  · rw [if_neg hlt]
    exact (List.drop_eq_nil_of_le (by omega)).symm

theorem highlightLoop_strip (line : List Char) (tlen : Nat) (f : Nat → Bool)
    (hno : noEsc line) :
    ∀ (cols : List Nat) (c lastPos : Nat), lastPos ≤ c →
      (∀ x ∈ c :: cols, x + tlen ≤ line.length) →
      List.Chain' (fun a b => a + tlen ≤ b) (c :: cols) →
      stripANSI (highlightLoop line tlen f lastPos (c :: cols)) = line.drop lastPos := by
  intro cols
  induction cols with
  | nil =>
    intro c lastPos hl hb hch
    simp only [highlightLoop, stripANSI]
    rw [List.append_assoc]
    rw [stripAux_append_noEsc _ (by
      by_cases hlt : lastPos < c
      · rw [if_pos hlt]; exact noEsc_take (noEsc_drop hno _) _
      · rw [if_neg hlt]; intro x hx; cases hx)]
    rw [stripAux_styleWrap _ _ (noEsc_take (noEsc_drop hno _) _)]
    rw [tailIf_eq line (c + tlen) (hb c (List.mem_cons_self _ _))]
    rw [show stripAux (line.drop (c + tlen)) false = line.drop (c + tlen) from
      stripANSI_noEsc (noEsc_drop hno _)]
    exact (segment_decomp line lastPos c tlen hl (hb c (List.mem_cons_self _ _))).symm
  | cons c2 cs2 ih =>
    intro c lastPos hl hb hch
    simp only [highlightLoop, stripANSI]
    rw [List.append_assoc]
    rw [stripAux_append_noEsc _ (by
      by_cases hlt : lastPos < c
      · rw [if_pos hlt]; exact noEsc_take (noEsc_drop hno _) _
      · rw [if_neg hlt]; intro x hx; cases hx)]
    rw [stripAux_styleWrap _ _ (noEsc_take (noEsc_drop hno _) _)]
    have hc2 : c + tlen ≤ c2 := (List.chain'_cons.mp hch).1
    have hrec := ih c2 (c + tlen) hc2
      (fun x hx => hb x (List.mem_cons_of_mem _ hx)) (List.chain'_cons.mp hch).2
    rw [show stripAux (highlightLoop line tlen f (c + tlen) (c2 :: cs2)) false
        = line.drop (c + tlen) from hrec]
    exact (segment_decomp line lastPos c tlen hl (hb c (List.mem_cons_self _ _))).symm

theorem highlightLoop_span (line : List Char) (tlen : Nat) (f : Nat → Bool) :
    ∀ (cols : List Nat) (lastPos c : Nat), c ∈ cols →
      ∃ a b, highlightLoop line tlen f lastPos cols
        = a ++ (styleWrap (f c) ((line.drop c).take tlen) ++ b) := by
  intro cols
  induction cols with
  | nil => intro lastPos c hc; cases hc
  | cons c0 cs ih =>
    intro lastPos c hc
    rcases List.mem_cons.mp hc with rfl | hc2
    · cases cs with
      | nil =>
        refine ⟨if lastPos < c then (line.drop lastPos).take (c - lastPos) else [],
          if c + tlen < line.length then line.drop (c + tlen) else [], ?_⟩
        simp [highlightLoop]
      | cons c2 cs2 =>
        refine ⟨if lastPos < c then (line.drop lastPos).take (c - lastPos) else [],
          highlightLoop line tlen f (c + tlen) (c2 :: cs2), ?_⟩
        simp [highlightLoop]
    · cases cs with
      | nil => cases hc2
      | cons c2 cs2 =>
        obtain ⟨a, b, hab⟩ := ih (c0 + tlen) c hc2
        refine ⟨((if lastPos < c0 then (line.drop lastPos).take (c0 - lastPos) else [])
          ++ styleWrap (f c0) ((line.drop c0).take tlen)) ++ a, b, ?_⟩
        simp only [highlightLoop, hab]
        simp [List.append_assoc]

theorem getD_map_range {α : Type} (n : Nat) (f : Nat → α) (i : Nat) (d : α)
    (h : i < n) : ((List.range n).map f).getD i d = f i := by
  simp [List.getD_eq_getElem?_getD, List.getElem?_map, List.getElem?_range, h]

theorem renderContentLines_getD (content plain : List String) (term : String)
    (ms : List SMatch) (cur : Nat) (ht : term ≠ "") (i : Nat) (hi : i < content.length) :
    (renderContentLines content plain term ms cur).getD i ""
      = (if List.insertionSort (· ≤ ·)
            ((ms.filter (fun mm => mm.line == i)).map (fun mm => mm.col)) = []
          ∨ plain.length ≤ i
         then content.getD i ""
         else String.mk (highlightLoop (plain.getD i "").data term.data.length
             (fun c => isCurrentMatch ms cur i c) 0
             (List.insertionSort (· ≤ ·)
               ((ms.filter (fun mm => mm.line == i)).map (fun mm => mm.col))))) := by
  rw [renderContentLines, if_neg ht, getD_map_range _ _ _ _ hi]

/-- Counterexample to claim C8 as stated: `renderContent` rebuilds a
matched line from `m.plainContent[lineNum]` (src/main.go line 309), not
from the styled `m.content` line, so the non-match portion does NOT keep
its original ANSI styling.  The styled line below carries a color escape
before `"cd"`; the highlighted output contains no trace of it. -/
theorem c8_plain_rebuild_counterexample :
    renderContentLines ["ab\x1b[31mcd"] ["abcd"] "ab" [⟨0, 0, "ab"⟩] 0
        = [String.mk (styleWrap true ("ab").data ++ ("cd").data)]
    ∧ subIndex ("ab\x1b[31mcd").data ('\x1b' :: ("[31m").data) = some 2
    ∧ subIndex (styleWrap true ("ab").data ++ ("cd").data) ('\x1b' :: ("[31m").data)
        = none := by
  refine ⟨by decide, by decide, by decide⟩

/-- Claim C8 (amended): with an active term, lines without matches keep
their styled form, while every line with matches is REBUILT from its
un-styled (ANSI-stripped) text, inserting a style span around each
match's character range at the plain-text offsets; in particular the
rebuilt line's visible text is exactly the plain text (the original
styling of non-match portions is discarded, see the counterexample). -/
theorem c8_highlight (content plain : List String) (term : String) (ms : List SMatch)
    (cur : Nat) (hterm : term ≠ "") (i : Nat) (hi : i < content.length) :
    ((ms.filter (fun mm => mm.line == i)) = [] →
      (renderContentLines content plain term ms cur).getD i "" = content.getD i "")
    ∧ (∀ c0 cs, List.insertionSort (· ≤ ·)
          ((ms.filter (fun mm => mm.line == i)).map (fun mm => mm.col)) = c0 :: cs →
        i < plain.length →
        noEsc (plain.getD i "").data →
        (∀ x ∈ c0 :: cs, x + term.data.length ≤ (plain.getD i "").data.length) →
        List.Chain' (fun a b => a + term.data.length ≤ b) (c0 :: cs) →
        stripANSI ((renderContentLines content plain term ms cur).getD i "").data
            = (plain.getD i "").data
        ∧ (∀ c ∈ c0 :: cs, ∃ a b,
            ((renderContentLines content plain term ms cur).getD i "").data
              = a ++ (styleWrap (isCurrentMatch ms cur i c)
                  (((plain.getD i "").data.drop c).take term.data.length) ++ b))) := by
  constructor
  · intro hfil
    rw [renderContentLines_getD content plain term ms cur hterm i hi]
    rw [if_pos (Or.inl (by rw [hfil]; rfl))]
  · intro c0 cs hcols hip hno hbound hchain
    rw [renderContentLines_getD content plain term ms cur hterm i hi]
    rw [if_neg (by
      push_neg
      constructor
      · rw [hcols]; exact List.cons_ne_nil _ _
      · omega)]
    rw [hcols]
    constructor
    · have := highlightLoop_strip (plain.getD i "").data term.data.length
        (fun c => isCurrentMatch ms cur i c) hno cs c0 0 (Nat.zero_le _) hbound hchain
      simpa using this
    · intro c hc
      exact highlightLoop_span (plain.getD i "").data term.data.length
        (fun c2 => isCurrentMatch ms cur i c2) (c0 :: cs) 0 c hc

/-- Witness for C8 at the styled/plain line pair of the counterexample:
highlighting preserves the plain text of the matched line. -/
theorem c8_highlight_witness :
    noEsc ("abcd").data
    ∧ stripANSI ((renderContentLines ["ab\x1b[31mcd"] ["abcd"] "ab"
        [⟨0, 0, "ab"⟩] 0).getD 0 "").data = ("abcd").data := by
  refine ⟨by unfold noEsc; decide, ?_⟩
  exact ((c8_highlight ["ab\x1b[31mcd"] ["abcd"] "ab" [⟨0, 0, "ab"⟩] 0
      (by decide) 0 (by norm_num)).2 0 [] (by decide) (by norm_num)
      (by unfold noEsc; decide) (by decide) (List.chain'_singleton _)).1


theorem sliceAux_strip (o w : Nat) :
    ∀ (cs : List Char) (inAnsi : Bool) (pos written : Nat),
      stripAux (sliceAux o w cs inAnsi pos written) inAnsi
        = ((stripAux cs inAnsi).drop (o - pos)).take (w - written) := by
  intro cs
  induction cs with
  | nil => intro inAnsi pos written; simp [sliceAux, stripAux]
  | cons c t ih =>
    intro inAnsi pos written
    by_cases hesc : c = '\x1b'
    · subst hesc
      rw [sliceAux, if_pos rfl]
      rw [show stripAux ('\x1b' :: sliceAux o w t true pos written) inAnsi
          = stripAux (sliceAux o w t true pos written) true from by rw [stripAux]; simp]
      rw [show stripAux ('\x1b' :: t) inAnsi = stripAux t true from by rw [stripAux]; simp]
      exact ih true pos written
    · cases inAnsi with
      | true =>
        rw [sliceAux, if_neg hesc, if_pos rfl]
        by_cases hlet : isGoLetter c = true
        · rw [show stripAux (c :: sliceAux o w t (!isGoLetter c) pos written) true
              = stripAux (sliceAux o w t (!isGoLetter c) pos written) false from by
            rw [stripAux]; simp [hesc, hlet]]
          rw [show stripAux (c :: t) true = stripAux t false from by
            rw [stripAux]; simp [hesc, hlet]]
          rw [hlet]
          exact ih false pos written
        · rw [show stripAux (c :: sliceAux o w t (!isGoLetter c) pos written) true
              = stripAux (sliceAux o w t (!isGoLetter c) pos written) true from by
            rw [stripAux]; simp [hesc, hlet]]
          rw [show stripAux (c :: t) true = stripAux t true from by
            rw [stripAux]; simp [hesc, hlet]]
          rw [show (!isGoLetter c) = true from by simp [hlet]]
          exact ih true pos written
      | false =>
        rw [sliceAux, if_neg hesc]
        rw [show (if false = true then
            c :: sliceAux o w t (!isGoLetter c) pos written
          else
            if o ≤ pos ∧ written < w then
              if w ≤ written + 1 then [c]
              else c :: sliceAux o w t false (pos + 1) (written + 1)
            else if w ≤ written then [] else sliceAux o w t false (pos + 1) written)
          = (if o ≤ pos ∧ written < w then
              if w ≤ written + 1 then [c]
              else c :: sliceAux o w t false (pos + 1) (written + 1)
            else if w ≤ written then [] else sliceAux o w t false (pos + 1) written)
          from by simp]
        rw [show stripAux (c :: t) false = c :: stripAux t false from by
          rw [stripAux]; simp [hesc]]
        by_cases hkeep : o ≤ pos ∧ written < w
        · rw [if_pos hkeep]
          rw [show o - pos = 0 from by omega]
          by_cases hbrk : w ≤ written + 1
          · rw [if_pos hbrk]
            rw [show stripAux [c] false = [c] from by rw [stripAux]; simp [hesc, stripAux]]
            rw [show w - written = 1 from by omega]
            simp
          · rw [if_neg hbrk]
            rw [show stripAux (c :: sliceAux o w t false (pos + 1) (written + 1)) false
                = c :: stripAux (sliceAux o w t false (pos + 1) (written + 1)) false from by
              rw [stripAux]; simp [hesc]]
            rw [ih false (pos + 1) (written + 1)]
            rw [show o - (pos + 1) = 0 from by omega]
            rw [List.drop_zero, List.drop_zero]
            rw [show w - written = (w - (written + 1)) + 1 from by omega]
            rw [List.take_succ_cons]
        · rw [if_neg hkeep]
          by_cases hw2 : w ≤ written
          · rw [if_pos hw2]
            rw [show stripAux [] false = [] from rfl]
            rw [show w - written = 0 from by omega]
            simp
          · rw [if_neg hw2]
            rw [ih false (pos + 1) written]
            have hpos : pos < o := by
              rcases Nat.lt_or_ge pos o with h1 | h1
              · exact h1
              · exact absurd ⟨h1, by omega⟩ hkeep
            rw [show o - pos = (o - (pos + 1)) + 1 from by omega]
            rw [List.drop_succ_cons]


theorem isGoLetter_ne_esc {c : Char} (h : isGoLetter c = true) : c ≠ '\x1b' := by
  intro hc
  subst hc
  simp [isGoLetter] at h

theorem sliceAux_run (o w : Nat) :
    ∀ (r : List Char), isRunChars r = true →
      ∀ (rest : List Char) (pos written : Nat),
        sliceAux o w (r ++ rest) true pos written
          = r ++ sliceAux o w rest false pos written
  | [], hr, _, _, _ => by simp [isRunChars] at hr
  | [c], hr, rest, pos, written => by
    have hlet : isGoLetter c = true := by simpa [isRunChars] using hr
    have hesc := isGoLetter_ne_esc hlet
    simp only [List.cons_append, List.nil_append]
    rw [sliceAux, if_neg hesc, if_pos rfl, hlet]
    rfl
  | c :: b :: t, hr, rest, pos, written => by
    have hr2 : isRunChars (b :: t) = true := by
      simp only [isRunChars, Bool.and_eq_true] at hr
      exact hr.2
    have hlet : isGoLetter c = false := by
      simp only [isRunChars, Bool.and_eq_true] at hr
      simpa using hr.1
    have ih := sliceAux_run o w (b :: t) hr2 rest pos written
    by_cases hesc : c = '\x1b'
    · subst hesc
      simp only [List.cons_append]
      rw [sliceAux, if_pos rfl]
      rw [List.cons_append] at ih
      rw [ih]
      simp
    · simp only [List.cons_append]
      rw [sliceAux, if_neg hesc, if_pos rfl, hlet]
      rw [List.cons_append] at ih
      rw [show (!false) = true from rfl]
      rw [ih]
      simp

theorem stripAux_run :
    ∀ (r : List Char), isRunChars r = true →
      ∀ (x : List Char), stripAux (r ++ x) true = stripAux x false
  | [], hr, _ => by simp [isRunChars] at hr
  | [c], hr, x => by
    have hlet : isGoLetter c = true := by simpa [isRunChars] using hr
    have hesc := isGoLetter_ne_esc hlet
    simp only [List.cons_append, List.nil_append]
    rw [stripAux]
    simp [hesc, hlet]
  | c :: b :: t, hr, x => by
    have hr2 : isRunChars (b :: t) = true := by
      simp only [isRunChars, Bool.and_eq_true] at hr
      exact hr.2
    have hlet : isGoLetter c = false := by
      simp only [isRunChars, Bool.and_eq_true] at hr
      simpa using hr.1
    have ih := stripAux_run (b :: t) hr2 x
    by_cases hesc : c = '\x1b'
    · subst hesc
      simp only [List.cons_append]
      rw [stripAux]
      simp only [if_pos rfl]
      rw [List.cons_append] at ih
      exact ih
    · simp only [List.cons_append]
      rw [stripAux]
      simp only [if_neg hesc, if_pos rfl, hlet]
      rw [List.cons_append] at ih
      simpa using ih

theorem c9_strip_sliceLine (line : List Char) (o w : Nat) :
    stripANSI (sliceLine line o w) = ((stripANSI line).drop o).take w := by
  rw [sliceLine]
  by_cases h1 : o = 0 ∧ (stripANSI line).length ≤ w
  · rw [if_pos h1]
    obtain ⟨ho, hl⟩ := h1
    subst ho
    rw [List.drop_zero, List.take_of_length_le hl]
  · rw [if_neg h1]
    by_cases h2 : (stripANSI line).length ≤ o
    · rw [if_pos h2]
      rw [List.drop_eq_nil_of_le (by simpa using h2)]
      simp [stripANSI, stripAux]
    · rw [if_neg h2]
      have := sliceAux_strip o w line false 0 0
      simpa [stripANSI] using this


theorem sliceAux_run_copied (o w : Nat) (r post : List Char)
    (hr : isRunChars r = true) :
    ∀ (pre : List Char), CleanToks pre → ∀ (pos written : Nat), written < w →
      written + ((stripANSI pre).length - (o - pos)) < w →
      ∃ a b, sliceAux o w (pre ++ '\x1b' :: (r ++ post)) false pos written
        = a ++ ('\x1b' :: r) ++ b := by
  intro pre hpre
  induction hpre with
  | nil =>
    intro pos written hw1 hw2
    refine ⟨[], sliceAux o w post false pos written, ?_⟩
    simp only [List.nil_append]
    rw [sliceAux, if_pos rfl]
    rw [sliceAux_run o w r hr post pos written]
    simp
  | vis c rest hc hrest ih =>
    intro pos written hw1 hw2
    have hcv : stripANSI (c :: rest) = c :: stripANSI rest := by
      simp only [stripANSI]
      rw [stripAux]
      simp [hc]
    rw [hcv] at hw2
    simp only [List.length_cons] at hw2
    simp only [List.cons_append]
    rw [sliceAux, if_neg hc]
    rw [show (if false = true then
        c :: sliceAux o w (rest ++ '\x1b' :: (r ++ post)) (!isGoLetter c) pos written
      else
        if o ≤ pos ∧ written < w then
          if w ≤ written + 1 then [c]
          else c :: sliceAux o w (rest ++ '\x1b' :: (r ++ post)) false (pos + 1) (written + 1)
        else if w ≤ written then []
          else sliceAux o w (rest ++ '\x1b' :: (r ++ post)) false (pos + 1) written)
      = (if o ≤ pos ∧ written < w then
          if w ≤ written + 1 then [c]
          else c :: sliceAux o w (rest ++ '\x1b' :: (r ++ post)) false (pos + 1) (written + 1)
        else if w ≤ written then []
          else sliceAux o w (rest ++ '\x1b' :: (r ++ post)) false (pos + 1) written)
      from by simp]
    by_cases hkeep : o ≤ pos ∧ written < w
    · rw [if_pos hkeep]
      have hop : o - pos = 0 := by omega
      rw [hop] at hw2
      by_cases hbrk : w ≤ written + 1
      · omega
      · rw [if_neg hbrk]
        obtain ⟨a, b, hab⟩ := ih (pos + 1) (written + 1) (by omega) (by omega)
        exact ⟨c :: a, b, by rw [hab]; simp⟩
    · rw [if_neg hkeep]
      rw [if_neg (by omega)]
      have hpos : pos < o := by
        rcases Nat.lt_or_ge pos o with h1 | h1
        · exact h1
        · exact absurd ⟨h1, hw1⟩ hkeep
      obtain ⟨a, b, hab⟩ := ih (pos + 1) written hw1 (by omega)
      exact ⟨a, b, hab⟩
  | run r0 rest hr0 hrest ih =>
    intro pos written hw1 hw2
    have hcv : stripANSI ('\x1b' :: (r0 ++ rest)) = stripANSI rest := by
      simp only [stripANSI]
      rw [stripAux]
      simp only [if_pos rfl]
      exact stripAux_run r0 hr0 rest
    rw [hcv] at hw2
    simp only [List.cons_append, List.append_assoc]
    rw [sliceAux, if_pos rfl]
    rw [sliceAux_run o w r0 hr0 (rest ++ '\x1b' :: (r ++ post)) pos written]
    obtain ⟨a, b, hab⟩ := ih pos written hw1 hw2
    exact ⟨'\x1b' :: (r0 ++ a), b, by rw [hab]; simp⟩

theorem c9_run_copied (pre r post : List Char) (o w : Nat) (hpre : CleanToks pre)
    (hr : isRunChars r = true) (hw : 1 ≤ w)
    (hcv : (stripANSI pre).length < o + w)
    (ho : o < (stripANSI (pre ++ '\x1b' :: (r ++ post))).length) :
    ∃ a b, sliceLine (pre ++ '\x1b' :: (r ++ post)) o w = a ++ ('\x1b' :: r) ++ b := by
  rw [sliceLine]
  by_cases h1 : o = 0 ∧ (stripANSI (pre ++ '\x1b' :: (r ++ post))).length ≤ w
  · rw [if_pos h1]
    exact ⟨pre, post, by simp⟩
  · rw [if_neg h1]
    rw [if_neg (by omega)]
    exact sliceAux_run_copied o w r post hr pre hpre 0 0 (by omega) (by omega)

theorem c9_pager_clamp (k : PagerKey) (m : PVModel) (h : pagerInv m) :
    pagerInv (pagerKey k m) := by
  obtain ⟨h1, h2⟩ := h
  rw [le_max_iff] at h2
  cases k <;>
    simp only [pagerKey, pagerInv] <;>
    (try split_ifs) <;>
    simp only [le_max_iff] <;>
    omega

/-- C9: ANSI-aware horizontal slicing: (a) composed with ANSI stripping it
skips the first `offset` visible characters and keeps up to `width` of the
following ones, so escape runs are never counted toward visible position;
(b) an escape run sitting inside the visible window is copied through in
full; (c) for the line "abcXdefXghi" with offset 2 and width 4 the result
is "cXde"; (d) the pager's horizontal-offset key handling keeps the offset
clamped to [0, max 0 (contentWidth - width)]. -/
theorem c9_slice_pager :
    (∀ (line : List Char) (o w : Nat),
        stripANSI (sliceLine line o w) = ((stripANSI line).drop o).take w) ∧
    (∀ (pre r post : List Char) (o w : Nat), CleanToks pre → isRunChars r = true →
        1 ≤ w → (stripANSI pre).length < o + w →
        o < (stripANSI (pre ++ '\x1b' :: (r ++ post))).length →
        ∃ a b, sliceLine (pre ++ '\x1b' :: (r ++ post)) o w
          = a ++ ('\x1b' :: r) ++ b) ∧
    sliceLine ("abcXdefXghi").data 2 4 = ("cXde").data ∧
    (∀ (k : PagerKey) (m : PVModel), pagerInv m → pagerInv (pagerKey k m)) := by
  refine ⟨c9_strip_sliceLine, ?_, by decide, c9_pager_clamp⟩
  intro pre r post o w hpre hr hw hcv ho
  exact c9_run_copied pre r post o w hpre hr hw hcv ho

theorem c9_slice_pager_witness :
    stripANSI (sliceLine ("abcXdefXghi").data 2 4) = ("cXde").data ∧
    (∃ a b, sliceLine (("ab").data ++ '\x1b' :: (("[31m").data ++ ("cd").data)) 0 5
        = a ++ ('\x1b' :: ("[31m").data) ++ b) ∧
    sliceLine ("abcXdefXghi").data 2 4 = ("cXde").data ∧
    pagerInv (pagerKey PagerKey.keyRight ⟨0, 80, 200⟩) := by
  obtain ⟨h1, h2, h3, h4⟩ := c9_slice_pager
  refine ⟨(h1 ("abcXdefXghi").data 2 4).trans (by decide), ?_, h3,
    h4 PagerKey.keyRight ⟨0, 80, 200⟩ (by constructor <;> simp)⟩
  exact h2 ("ab").data ("[31m").data ("cd").data 0 5
    (CleanToks.vis 'a' _ (by decide)
      (CleanToks.vis 'b' _ (by decide) CleanToks.nil))
    (by decide) (by decide) (by decide) (by decide)

end JT
